import Mathlib

/-!
Verification development for `sources/sdk/pygcp/gcp/interactive/_dataflow.py`.

Python dicts are modeled as insertion-ordered association lists
(assignment overwrites in place, new keys are appended at the end).
The graph builder's shared mutable node dicts are addressed by their
label key, which is faithful whenever labels are unique — the pipeline
invariant guaranteed by the collaborator.
-/

namespace Datalab

/-- Python dict lookup: first binding of the key, if any. -/
def dictGet {β : Type} (d : List (String × β)) (k : String) : Option β :=
  match d with
  | [] => none
  | (k', v) :: rest => if k' = k then some v else dictGet rest k

/-- Python dict assignment: overwrite in place, or append a fresh key at the end. -/
def dictSet {β : Type} (d : List (String × β)) (k : String) (v : β) :
    List (String × β) :=
  match d with
  | [] => [(k, v)]
  | (k', v') :: rest => if k' = k then (k', v) :: rest else (k', v') :: dictSet rest k v

theorem dictGet_dictSet_self {β : Type} (d : List (String × β)) (k : String) (v : β) :
    dictGet (dictSet d k v) k = some v := by
  induction d with
  | nil => simp [dictGet, dictSet]
  | cons hd tl ih =>
    obtain ⟨k', v'⟩ := hd
    by_cases h : k' = k <;> simp [dictGet, dictSet, h, ih]

theorem dictGet_dictSet_ne {β : Type} (d : List (String × β)) (k q : String) (v : β)
    (h : q ≠ k) : dictGet (dictSet d k v) q = dictGet d q := by
  have hk : ¬k = q := fun he => h he.symm
  induction d with
  | nil => simp [dictGet, dictSet, hk]
  | cons hd tl ih =>
    obtain ⟨k', v'⟩ := hd
    by_cases hkk : k' = k
    · subst hkk
      simp [dictGet, dictSet, hk]
    · simp only [dictSet, if_neg hkk, dictGet]
      split <;> simp [ih]

theorem keys_dictSet_of_isSome {β : Type} (d : List (String × β)) (k : String) (v : β)
    (h : (dictGet d k).isSome) :
    (dictSet d k v).map Prod.fst = d.map Prod.fst := by
  induction d with
  | nil => simp [dictGet] at h
  | cons hd tl ih =>
    obtain ⟨k', v'⟩ := hd
    by_cases hk : k' = k
    · simp [dictSet, hk]
    · simp [dictGet, hk] at h
      simp [dictSet, hk, ih h]

theorem keys_dictSet_of_fresh {β : Type} (d : List (String × β)) (k : String) (v : β)
    (h : dictGet d k = none) :
    (dictSet d k v).map Prod.fst = d.map Prod.fst ++ [k] := by
  induction d with
  | nil => simp [dictSet]
  | cons hd tl ih =>
    obtain ⟨k', v'⟩ := hd
    by_cases hk : k' = k
    · simp [dictGet, hk] at h
    · simp [dictGet, hk] at h
      simp [dictSet, hk, ih h]

theorem dictGet_isSome_iff_mem_keys {β : Type} (d : List (String × β)) (k : String) :
    (dictGet d k).isSome ↔ k ∈ d.map Prod.fst := by
  induction d with
  | nil => simp [dictGet]
  | cons hd tl ih =>
    obtain ⟨k', v'⟩ := hd
    by_cases hk : k' = k
    · subst hk
      simp [dictGet]
    · have hk2 : ¬k = k' := fun he => hk he.symm
      simp [dictGet, hk, hk2, ih]

/-! ## Data Collector (`DataflowDataCollector`) -/

/-- A Python runtime class tag: the `PCollection` class itself, a strict
subclass of some parent class, or an unrelated class. -/
inductive PyType where
  | pcollectionType : PyType
  | subclassType (name : String) (parent : PyType) : PyType
  | otherType (name : String) : PyType
deriving DecidableEq

/-- A produced pipeline value as seen by `visit_value`: its runtime type and
`items` — the materialized sequence `list(value.get())` in iteration order. -/
structure PValue (α : Type) where
  runtimeType : PyType
  items : List α
deriving DecidableEq

/-- One recorded sample: `{'count': len(items), 'data': items[:25]}`. -/
structure SampleRecord (α : Type) where
  count : Nat
  data : List α
deriving DecidableEq

abbrev SampleDict (α : Type) := List (String × SampleRecord α)

/-- `DataflowDataCollector.visit_value`: record a sample only when
`type(value) == df.pvalue.PCollection` (exact class identity). -/
def DataflowDataCollector.visit_value {α : Type} (st : SampleDict α)
    (value : PValue α) (producer_full_label : String) : SampleDict α :=
  if value.runtimeType = PyType.pcollectionType then
    dictSet st producer_full_label ⟨value.items.length, value.items.take 25⟩
  else st

/-- The traversal fires `visit_value` once per produced value, in pipeline
order, threading the collector's `_data` dict. -/
def DataflowDataCollector.visitFrom {α : Type} (st : SampleDict α)
    (values : List (PValue α × String)) : SampleDict α :=
  match values with
  | [] => st
  | (v, p) :: rest =>
    DataflowDataCollector.visitFrom (DataflowDataCollector.visit_value st v p) rest

/-- `DataflowDataCollector.visit`: run over all produced values of the
pipeline (paired with their producer node's full label) and return `_data`. -/
def DataflowDataCollector.visit {α : Type} (values : List (PValue α × String)) :
    SampleDict α :=
  DataflowDataCollector.visitFrom [] values

theorem visit_value_dictGet_ne {α : Type} (st : SampleDict α) (v : PValue α)
    (p q : String) (h : q ≠ p) :
    dictGet (DataflowDataCollector.visit_value st v p) q = dictGet st q := by
  unfold DataflowDataCollector.visit_value
  split
  · exact dictGet_dictSet_ne st p q _ h
  · rfl

theorem visitFrom_dictGet_of_not_mem {α : Type} (st : SampleDict α)
    (values : List (PValue α × String)) (p : String)
    (h : p ∉ values.map Prod.snd) :
    dictGet (DataflowDataCollector.visitFrom st values) p = dictGet st p := by
  induction values generalizing st with
  | nil => rfl
  | cons hd tl ih =>
    obtain ⟨v, q⟩ := hd
    simp only [List.map_cons, List.mem_cons] at h
    push_neg at h
    rw [DataflowDataCollector.visitFrom, ih _ h.2,
      visit_value_dictGet_ne st v q p h.1]

theorem visitFrom_dictGet_of_mem {α : Type} (st : SampleDict α)
    (values : List (PValue α × String)) (v : PValue α) (p : String)
    (hnd : (values.map Prod.snd).Nodup) (hmem : (v, p) ∈ values) :
    dictGet (DataflowDataCollector.visitFrom st values) p =
      if v.runtimeType = PyType.pcollectionType then
        some ⟨v.items.length, v.items.take 25⟩
      else dictGet st p := by
  induction values generalizing st with
  | nil => cases hmem
  | cons hd tl ih =>
    obtain ⟨w, q⟩ := hd
    simp only [List.map_cons, List.nodup_cons] at hnd
    rcases List.mem_cons.mp hmem with hh | hh
    · rw [Prod.mk.injEq] at hh
      obtain ⟨rfl, rfl⟩ := hh
      rw [DataflowDataCollector.visitFrom,
        visitFrom_dictGet_of_not_mem _ _ _ hnd.1]
      unfold DataflowDataCollector.visit_value
      split
      · rw [dictGet_dictSet_self]
      · rfl
    · have hpq : p ≠ q := by
        intro he
        exact hnd.1 (he ▸ List.mem_map.mpr ⟨(v, p), hh, rfl⟩)
      rw [DataflowDataCollector.visitFrom, ih _ hnd.2 hh,
        visit_value_dictGet_ne st w q p hpq]

/-- Claim C3: for every produced collection value visited by the Data
Collector, the recorded sample data holds at most 25 items and equals the
first 25 items of the materialized sequence in iteration order, while the
recorded count equals the true total number of items even when truncated. -/
theorem C3_sample_bounded {α : Type} (st : SampleDict α) (value : PValue α)
    (p : String) (h : value.runtimeType = PyType.pcollectionType) :
    ∃ r : SampleRecord α,
      dictGet (DataflowDataCollector.visit_value st value p) p = some r ∧
      r.data = value.items.take 25 ∧ r.data.length ≤ 25 ∧
      r.count = value.items.length := by
  refine ⟨⟨value.items.length, value.items.take 25⟩, ?_, rfl, ?_, rfl⟩
  · unfold DataflowDataCollector.visit_value
    rw [if_pos h, dictGet_dictSet_self]
  · simp [List.length_take]

/-- Witness for C3 at a concrete 30-element collection. -/
theorem C3_sample_bounded_witness :
    (⟨PyType.pcollectionType, List.range 30⟩ : PValue Nat).runtimeType =
      PyType.pcollectionType ∧
    ∃ r : SampleRecord Nat,
      dictGet (DataflowDataCollector.visit_value []
        ⟨PyType.pcollectionType, List.range 30⟩ "step") "step" = some r ∧
      r.data = (List.range 30).take 25 ∧ r.data.length ≤ 25 ∧
      r.count = (List.range 30).length :=
  ⟨rfl, C3_sample_bounded [] ⟨PyType.pcollectionType, List.range 30⟩ "step" rfl⟩

/-- Claim C9: the Data Collector records a sample entry for a visited value
iff the value's runtime type is exactly the `PCollection` class; a value whose
type is a strict subclass of `PCollection` produces no entry in the returned
mapping. -/
theorem C9_exact_type_check {α : Type} (values : List (PValue α × String))
    (v : PValue α) (p : String)
    (hnd : (values.map Prod.snd).Nodup) (hmem : (v, p) ∈ values) :
    ((dictGet (DataflowDataCollector.visit values) p).isSome ↔
      v.runtimeType = PyType.pcollectionType) ∧
    (∀ n pt, v.runtimeType = PyType.subclassType n pt →
      dictGet (DataflowDataCollector.visit values) p = none) := by
  have hkey := visitFrom_dictGet_of_mem ([] : SampleDict α) values v p hnd hmem
  rw [DataflowDataCollector.visit]
  constructor
  · rw [hkey]
    split
    · simp [*]
    · simp [dictGet, *]
  · intro n pt hty
    rw [hkey, hty]
    simp [dictGet]

/-- Witness for C9: a strict subclass of PCollection is skipped while an exact
PCollection alongside it is sampled. -/
theorem C9_exact_type_check_witness :
    ((([(⟨PyType.subclassType "MyColl" PyType.pcollectionType, [1, 2]⟩, "a"),
        (⟨PyType.pcollectionType, [3]⟩, "b")] :
        List (PValue Nat × String)).map Prod.snd).Nodup ∧
      ((⟨PyType.subclassType "MyColl" PyType.pcollectionType, [1, 2]⟩ : PValue Nat), "a") ∈
        ([(⟨PyType.subclassType "MyColl" PyType.pcollectionType, [1, 2]⟩, "a"),
          (⟨PyType.pcollectionType, [3]⟩, "b")] : List (PValue Nat × String))) ∧
    dictGet (DataflowDataCollector.visit
      ([(⟨PyType.subclassType "MyColl" PyType.pcollectionType, [1, 2]⟩, "a"),
        (⟨PyType.pcollectionType, [3]⟩, "b")] : List (PValue Nat × String))) "a" = none := by
  refine ⟨⟨by decide, List.Mem.head _⟩, ?_⟩
  exact (C9_exact_type_check _ _ "a" (by decide) (List.Mem.head _)).2
    "MyColl" PyType.pcollectionType rfl

/-! ## Local Catalog (`DataflowLocalCatalog`)

Python lists are shared mutable objects: the catalog's list sources/sinks and
the interactive namespace alias the very same list.  We model list objects by
addresses into a heap of lists, so aliasing is explicit. -/

/-- A heap of Python list objects; an address is an index into `lists`. -/
structure Heap (α : Type) where
  lists : List (List α)
deriving DecidableEq

/-- Allocate a fresh list object (`list()`), returning its address. -/
def Heap.alloc {α : Type} (h : Heap α) (xs : List α) : Heap α × Nat :=
  (⟨h.lists ++ [xs]⟩, h.lists.length)

def Heap.fetch {α : Type} (h : Heap α) (a : Nat) : Option (List α) :=
  h.lists.get? a

def Heap.store {α : Type} (h : Heap α) (a : Nat) (xs : List α) : Heap α :=
  ⟨h.lists.set a xs⟩

/-- A value bound in the interactive namespace, as the catalog inspects it:
Python `None`, a plain `list` object (by address — `type(data) == list`), or
any other value. -/
inductive PyVal where
  | pynone : PyVal
  | pylist (addr : Nat) : PyVal
  | pyother (tag : String) : PyVal
deriving DecidableEq

/-- The interactive namespace `ns`. -/
abbrev NS := List (String × PyVal)

/-- A registered source object: Python `None`, a template-provided source
descriptor, or a `DataflowLocalCatalog.ListSource` wrapping a list object. -/
inductive SourceObj where
  | pynone : SourceObj
  | templateSource (tag : String) : SourceObj
  | listSource (addr : Nat) : SourceObj
deriving DecidableEq

/-- A registered `DataflowLocalCatalog.ListSink` wrapping a list object. -/
inductive SinkObj where
  | listSink (addr : Nat) : SinkObj
deriving DecidableEq

structure DataflowLocalCatalog where
  sources : List (String × SourceObj)
  sinks : List (String × SinkObj)
deriving DecidableEq

/-- `DataflowLocalCatalog()` built with no template catalog. -/
def DataflowLocalCatalog.empty : DataflowLocalCatalog := ⟨[], []⟩

/-- `add_sink(name, ns)`: `data = ns[name] = list()` then
`self.sinks[name] = ListSink(data)`.  Returns the updated catalog, namespace
and heap. -/
def DataflowLocalCatalog.add_sink {α : Type} (cat : DataflowLocalCatalog)
    (name : String) (ns : NS) (h : Heap α) :
    DataflowLocalCatalog × NS × Heap α :=
  let (h', a) := h.alloc []
  let ns' := dictSet ns name (PyVal.pylist a)
  ({ cat with sinks := dictSet cat.sinks name (SinkObj.listSink a) }, ns', h')

/-- `add_source(name, source, ns)`: `data = ns.get(name, None)`; when `data`
is not `None` it must be exactly a `list` (else `TypeError`), in which case the
registered source becomes `ListSource(data)`; otherwise the incoming source is
registered unchanged. -/
def DataflowLocalCatalog.add_source (cat : DataflowLocalCatalog)
    (name : String) (source : SourceObj) (ns : NS) :
    Except String DataflowLocalCatalog :=
  match (dictGet ns name).getD PyVal.pynone with
  | PyVal.pynone =>
    Except.ok { cat with sources := dictSet cat.sources name source }
  | PyVal.pylist a =>
    Except.ok { cat with sources := dictSet cat.sources name (SourceObj.listSource a) }
  | PyVal.pyother _ =>
    Except.error ("TypeError: \"" ++ name ++ "\" does not represent a list")

/-- Items yielded by one read session of a registered source: a
`ListSource.Reader` iterates the wrapped list object in order. -/
def SourceObj.readItems {α : Type} (s : SourceObj) (h : Heap α) : Option (List α) :=
  match s with
  | SourceObj.listSource a => h.fetch a
  | _ => none

/-- `ListSink.Writer.Write(o)`: `self._data.append(o)` on the shared list. -/
def SinkObj.write {α : Type} (s : SinkObj) (h : Heap α) (o : α) : Heap α :=
  match s with
  | SinkObj.listSink a => h.store a (((h.fetch a).getD []) ++ [o])

/-- A whole write session: append each item in order. -/
def SinkObj.writeAll {α : Type} (s : SinkObj) (h : Heap α) (os : List α) : Heap α :=
  match os with
  | [] => h
  | o :: rest => SinkObj.writeAll s (s.write h o) rest

theorem Heap.fetch_alloc_self {α : Type} (h : Heap α) (xs : List α) :
    (h.alloc xs).1.fetch (h.alloc xs).2 = some xs := by
  show ((h.lists ++ [xs]).get? h.lists.length) = some xs
  rw [List.get?_eq_getElem?, List.getElem?_append_right (Nat.le_refl _)]
  simp

theorem Heap.fetch_alloc_lt {α : Type} (h : Heap α) (xs : List α) (a : Nat)
    (ha : a < h.lists.length) : (h.alloc xs).1.fetch a = h.fetch a := by
  show ((h.lists ++ [xs]).get? a) = h.lists.get? a
  rw [List.get?_eq_getElem?, List.get?_eq_getElem?, List.getElem?_append_left ha]

theorem Heap.fetch_store_self {α : Type} (h : Heap α) (a : Nat) (xs : List α)
    (ha : a < h.lists.length) : (h.store a xs).fetch a = some xs := by
  show ((h.lists.set a xs).get? a) = some xs
  rw [List.get?_eq_getElem?]
  simp [List.getElem?_set_self', ha]

theorem SinkObj.writeAll_fetch {α : Type} (a : Nat) (h : Heap α) (os xs : List α)
    (ha : h.fetch a = some xs) :
    ((SinkObj.listSink a).writeAll h os).fetch a = some (xs ++ os) := by
  induction os generalizing h xs with
  | nil => simpa [SinkObj.writeAll] using ha
  | cons o rest ih =>
    have hlt : a < h.lists.length := by
      by_contra hge
      rw [Heap.fetch, List.get?_eq_none.mpr (Nat.le_of_not_lt hge)] at ha
      cases ha
    rw [SinkObj.writeAll]
    have hw : ((SinkObj.listSink a).write h o).fetch a = some (xs ++ [o]) := by
      rw [SinkObj.write, ha]
      simpa using Heap.fetch_store_self h a (xs ++ [o]) hlt
    rw [ih _ _ hw]
    simp

/-- Claim C4: adding a source named `n`: a `list` bound to `n` in the
namespace overrides the template source (which is ignored) and the registered
source reads that very list; a non-`None` non-`list` binding raises
`TypeError`; an unbound (or `None`-bound) name registers the template source
unchanged. -/
theorem C4_add_source_cases {α : Type} (cat : DataflowLocalCatalog)
    (name : String) (source : SourceObj) (ns : NS) :
    (∀ a, dictGet ns name = some (PyVal.pylist a) →
      (DataflowLocalCatalog.add_source cat name source ns =
        Except.ok { cat with sources := dictSet cat.sources name (SourceObj.listSource a) } ∧
      (∀ source', DataflowLocalCatalog.add_source cat name source ns =
        DataflowLocalCatalog.add_source cat name source' ns) ∧
      (∀ h : Heap α, (SourceObj.listSource a).readItems h = h.fetch a))) ∧
    (∀ tag, dictGet ns name = some (PyVal.pyother tag) →
      ∃ msg, DataflowLocalCatalog.add_source cat name source ns = Except.error msg) ∧
    ((dictGet ns name = none ∨ dictGet ns name = some PyVal.pynone) →
      DataflowLocalCatalog.add_source cat name source ns =
        Except.ok { cat with sources := dictSet cat.sources name source }) := by
  refine ⟨?_, ?_, ?_⟩
  · intro a hbind
    rw [DataflowLocalCatalog.add_source, hbind]
    refine ⟨rfl, fun source' => ?_, fun h => rfl⟩
    rw [DataflowLocalCatalog.add_source, hbind]
    rfl
  · intro tag hbind
    rw [DataflowLocalCatalog.add_source, hbind]
    exact ⟨_, rfl⟩
  · rintro (hbind | hbind) <;> rw [DataflowLocalCatalog.add_source, hbind] <;> rfl

/-- Witness for C4 on a concrete namespace exercising all three cases. -/
theorem C4_add_source_cases_witness :
    (dictGet [("inL", PyVal.pylist 0), ("inO", PyVal.pyother "int")] "inL" =
      some (PyVal.pylist 0) ∧
     DataflowLocalCatalog.add_source DataflowLocalCatalog.empty "inL"
        (SourceObj.templateSource "t")
        [("inL", PyVal.pylist 0), ("inO", PyVal.pyother "int")] =
      Except.ok ⟨[("inL", SourceObj.listSource 0)], []⟩ ∧
     (SourceObj.listSource 0).readItems (⟨[[7, 8]]⟩ : Heap Nat) = some [7, 8]) ∧
    (dictGet [("inL", PyVal.pylist 0), ("inO", PyVal.pyother "int")] "inO" =
      some (PyVal.pyother "int") ∧
     ∃ msg, DataflowLocalCatalog.add_source DataflowLocalCatalog.empty "inO"
        (SourceObj.templateSource "t")
        [("inL", PyVal.pylist 0), ("inO", PyVal.pyother "int")] = Except.error msg) ∧
    (dictGet [("inL", PyVal.pylist 0), ("inO", PyVal.pyother "int")] "inU" = none ∧
     DataflowLocalCatalog.add_source DataflowLocalCatalog.empty "inU"
        (SourceObj.templateSource "t")
        [("inL", PyVal.pylist 0), ("inO", PyVal.pyother "int")] =
      Except.ok ⟨[("inU", SourceObj.templateSource "t")], []⟩) := by
  have h1 := (C4_add_source_cases (α := Nat) DataflowLocalCatalog.empty "inL"
    (SourceObj.templateSource "t")
    [("inL", PyVal.pylist 0), ("inO", PyVal.pyother "int")]).1 0 rfl
  have h2 := (C4_add_source_cases (α := Nat) DataflowLocalCatalog.empty "inO"
    (SourceObj.templateSource "t")
    [("inL", PyVal.pylist 0), ("inO", PyVal.pyother "int")]).2.1 "int" rfl
  have h3 := (C4_add_source_cases (α := Nat) DataflowLocalCatalog.empty "inU"
    (SourceObj.templateSource "t")
    [("inL", PyVal.pylist 0), ("inO", PyVal.pyother "int")]).2.2 (Or.inl rfl)
  exact ⟨⟨rfl, h1.1, h1.2.2 ⟨[[7, 8]]⟩⟩, ⟨rfl, h2⟩, ⟨rfl, h3⟩⟩

/-- Claim C5: sink creation allocates a fresh empty list, binds it in the
namespace under the sink's name unconditionally overwriting any existing
binding, and the registered sink's writer appends every written item to
exactly that list. -/
theorem C5_add_sink_fresh {α : Type} (cat : DataflowLocalCatalog)
    (name : String) (ns : NS) (h : Heap α)
    (hvalid : ∀ x a', dictGet ns x = some (PyVal.pylist a') → a' < h.lists.length) :
    ∃ a, DataflowLocalCatalog.add_sink cat name ns h =
        ({ cat with sinks := dictSet cat.sinks name (SinkObj.listSink a) },
         dictSet ns name (PyVal.pylist a),
         (h.alloc []).1) ∧
      dictGet (dictSet ns name (PyVal.pylist a)) name = some (PyVal.pylist a) ∧
      (h.alloc []).1.fetch a = some [] ∧
      (∀ a', dictGet ns name = some (PyVal.pylist a') →
        a' ≠ a ∧ (h.alloc []).1.fetch a' = h.fetch a') ∧
      (∀ os : List α,
        ((SinkObj.listSink a).writeAll (h.alloc []).1 os).fetch a = some os) := by
  refine ⟨h.lists.length, rfl, dictGet_dictSet_self _ _ _, ?_, ?_, ?_⟩
  · simpa using Heap.fetch_alloc_self h []
  · intro a' hget
    have hlt := hvalid name a' hget
    exact ⟨Nat.ne_of_lt hlt, Heap.fetch_alloc_lt h [] a' hlt⟩
  · intro os
    have := SinkObj.writeAll_fetch (h.lists.length) (h.alloc []).1 os []
      (by simpa using Heap.fetch_alloc_self h [])
    simpa using this

/-- Witness for C5: a pre-existing binding of "out" is overwritten by a fresh
empty list and writes land in it. -/
theorem C5_add_sink_fresh_witness :
    (∀ x a', dictGet [("out", PyVal.pylist 0)] x = some (PyVal.pylist a') →
      a' < (⟨[[9]]⟩ : Heap Nat).lists.length) ∧
    ∃ a, DataflowLocalCatalog.add_sink DataflowLocalCatalog.empty "out"
        [("out", PyVal.pylist 0)] (⟨[[9]]⟩ : Heap Nat) =
        (⟨[], [("out", SinkObj.listSink a)]⟩,
         dictSet [("out", PyVal.pylist 0)] "out" (PyVal.pylist a),
         ((⟨[[9]]⟩ : Heap Nat).alloc []).1) ∧
      dictGet (dictSet [("out", PyVal.pylist 0)] "out" (PyVal.pylist a)) "out" =
        some (PyVal.pylist a) ∧
      ((⟨[[9]]⟩ : Heap Nat).alloc []).1.fetch a = some [] ∧
      (∀ a', dictGet [("out", PyVal.pylist 0)] "out" = some (PyVal.pylist a') →
        a' ≠ a ∧ ((⟨[[9]]⟩ : Heap Nat).alloc []).1.fetch a' =
          (⟨[[9]]⟩ : Heap Nat).fetch a') ∧
      (∀ os : List Nat,
        ((SinkObj.listSink a).writeAll ((⟨[[9]]⟩ : Heap Nat).alloc []).1 os).fetch a =
          some os) := by
  have hvalid : ∀ x a', dictGet [("out", PyVal.pylist 0)] x = some (PyVal.pylist a') →
      a' < (⟨[[9]]⟩ : Heap Nat).lists.length := by
    intro x a' hg
    rw [dictGet] at hg
    split at hg
    · cases hg
      decide
    · cases hg
  obtain ⟨a, h1, h2, h3, h4, h5⟩ :=
    C5_add_sink_fresh DataflowLocalCatalog.empty "out"
      [("out", PyVal.pylist 0)] (⟨[[9]]⟩ : Heap Nat) hvalid
  exact ⟨hvalid, a, h1, h2, h3, fun a' hg => ⟨(h4 a' hg).1, (h4 a' hg).2⟩, h5⟩

/-- The catalog-registration phase of `PTransformExecutor.execute`:
`catalog = DataflowLocalCatalog(); catalog.add_source(input_name, None, ns);
if output_name is not None: catalog.add_sink(output_name, ns)`.
The subsequent pipeline construction and run belong to the external runner. -/
def PTransformExecutor.setupCatalog {α : Type} (input_name : String)
    (output_name : Option String) (ns : NS) (h : Heap α) :
    Except String (DataflowLocalCatalog × NS × Heap α) :=
  match DataflowLocalCatalog.add_source DataflowLocalCatalog.empty input_name
      SourceObj.pynone ns with
  | Except.error e => Except.error e
  | Except.ok catalog =>
    match output_name with
    | some out => Except.ok (catalog.add_sink out ns h)
    | none => Except.ok (catalog, ns, h)

/-- Claim C10: registering the single-transform executor's ad-hoc input source
for a name unbound in the namespace raises no error and silently registers
Python `None` as that name's source. -/
theorem C10_unbound_input_silent {α : Type} (input_name : String)
    (output_name : Option String) (ns : NS) (h : Heap α)
    (hunbound : dictGet ns input_name = none) :
    ∃ res : DataflowLocalCatalog × NS × Heap α,
      PTransformExecutor.setupCatalog input_name output_name ns h =
        Except.ok res ∧
      dictGet res.1.sources input_name = some SourceObj.pynone := by
  have hsrc : DataflowLocalCatalog.add_source DataflowLocalCatalog.empty input_name
      SourceObj.pynone ns =
      Except.ok { DataflowLocalCatalog.empty with
        sources := dictSet DataflowLocalCatalog.empty.sources input_name SourceObj.pynone } := by
    rw [DataflowLocalCatalog.add_source, hunbound]
    rfl
  rw [PTransformExecutor.setupCatalog, hsrc]
  cases output_name with
  | none => exact ⟨_, rfl, dictGet_dictSet_self _ _ _⟩
  | some out =>
    refine ⟨_, rfl, ?_⟩
    rw [DataflowLocalCatalog.add_sink]
    exact dictGet_dictSet_self _ _ _

/-- Witness for C10 at a concrete empty namespace. -/
theorem C10_unbound_input_silent_witness :
    dictGet ([] : NS) "in" = none ∧
    ∃ res : DataflowLocalCatalog × NS × Heap Nat,
      PTransformExecutor.setupCatalog "in" (some "out") [] (⟨[]⟩ : Heap Nat) =
        Except.ok res ∧
      dictGet res.1.sources "in" = some SourceObj.pynone :=
  ⟨rfl, C10_unbound_input_silent "in" (some "out") [] ⟨[]⟩ rfl⟩

/-! ## Executors and command entry points -/

/-- A module attribute as the executors inspect it: Python `None`, or an
object carrying the runtime properties the code tests — `callable(x)`,
`len(inspect.getargspec(x)[0])`, `type(x) == type`, and
`issubclass(x, df.PTransform)`. -/
inductive PyAttr where
  | anone : PyAttr
  | aobj (isCallable : Bool) (argCount : Nat) (isType : Bool)
      (inheritsPTransform : Bool) : PyAttr
deriving DecidableEq

/-- A module object: its `__dict__`. -/
structure PyModule where
  moduleDict : List (String × PyAttr)
deriving DecidableEq

/-- A notebook-namespace value relevant to the executors. -/
inductive ExecNSVal where
  | vnone : ExecNSVal
  | vmodule (m : PyModule) : ExecNSVal
deriving DecidableEq

abbrev ExecNS := List (String × ExecNSVal)

/-- `module.__dict__.get(k, None)`. -/
def pyDictGet (d : List (String × PyAttr)) (k : String) : PyAttr :=
  (dictGet d k).getD PyAttr.anone

/-- Locate the pipeline-construction callback: `__dict__.get('dataflow')`,
falling back to `__dict__.get('main')` when that gave `None`. -/
def locateMethod (m : PyModule) : PyAttr :=
  match pyDictGet m.moduleDict "dataflow" with
  | PyAttr.anone => pyDictGet m.moduleDict "main"
  | x => x

structure DataflowExecutor where
  create_dataflow : PyAttr
  ns : ExecNS
deriving DecidableEq

/-- `DataflowExecutor.from_namespace(ns)`: requires a module named
`dataflow` in the namespace and a located callback that is callable with
exactly 3 positional arguments. -/
def DataflowExecutor.from_namespace (ns : ExecNS) :
    Except String DataflowExecutor :=
  match (dictGet ns "dataflow").getD ExecNSVal.vnone with
  | ExecNSVal.vnone =>
    Except.error "A module named \"dataflow\" was not found in this notebook."
  | ExecNSVal.vmodule m =>
    match locateMethod m with
    | PyAttr.anone =>
      Except.error "The dataflow module defined does not contain a \"dataflow(pipeline, catalog, args)\" method."
    | PyAttr.aobj c argc ty inh =>
      if c = false ∨ argc ≠ 3 then
        Except.error "The dataflow module defined does not contain a \"dataflow(pipeline, catalog, args)\" method."
      else
        Except.ok ⟨PyAttr.aobj c argc ty inh, ns⟩

/-- `PTransformExecutor.from_namespace(ns, name)`: requires the `dataflow`
module, a class named `name` inside it (`type(x) == type`), inheriting from
`df.PTransform`. -/
structure PTransformExecutor where
  cls : PyAttr
  ns : ExecNS
deriving DecidableEq

def PTransformExecutor.from_namespace (ns : ExecNS) (name : String) :
    Except String PTransformExecutor :=
  match (dictGet ns "dataflow").getD ExecNSVal.vnone with
  | ExecNSVal.vnone =>
    Except.error "A module named \"dataflow\" was not found in this notebook."
  | ExecNSVal.vmodule m =>
    match pyDictGet m.moduleDict name with
    | PyAttr.anone =>
      Except.error ("The dataflow module does not contain a class named \"" ++ name ++ "\"")
    | PyAttr.aobj c argc ty inh =>
      if ty = false then
        Except.error ("The dataflow module does not contain a class named \"" ++ name ++ "\"")
      else if inh = false then
        Except.error "The class named \"%s\" does not inherit from PTransform."
      else
        Except.ok ⟨PyAttr.aobj c argc ty inh, ns⟩

/-- Claim C7: constructing the Local Executor fails iff the namespace lacks a
`dataflow` module, or that module defines neither a `dataflow` nor a `main`
attribute, or the located attribute is not callable, or it does not take
exactly 3 positional arguments; otherwise an executor wrapping that callback
is returned. -/
theorem C7_from_namespace_config (ns : ExecNS) :
    ((∃ msg, DataflowExecutor.from_namespace ns = Except.error msg) ↔
      ((dictGet ns "dataflow").getD ExecNSVal.vnone = ExecNSVal.vnone ∨
       (∃ m, (dictGet ns "dataflow").getD ExecNSVal.vnone = ExecNSVal.vmodule m ∧
         pyDictGet m.moduleDict "dataflow" = PyAttr.anone ∧
         pyDictGet m.moduleDict "main" = PyAttr.anone) ∨
       (∃ m c argc ty inh,
         (dictGet ns "dataflow").getD ExecNSVal.vnone = ExecNSVal.vmodule m ∧
         locateMethod m = PyAttr.aobj c argc ty inh ∧ (c = false ∨ argc ≠ 3)))) ∧
    (∀ m c argc ty inh,
      (dictGet ns "dataflow").getD ExecNSVal.vnone = ExecNSVal.vmodule m →
      locateMethod m = PyAttr.aobj c argc ty inh → c = true → argc = 3 →
      DataflowExecutor.from_namespace ns =
        Except.ok ⟨PyAttr.aobj c argc ty inh, ns⟩) := by
  have hanone : ∀ m : PyModule, locateMethod m = PyAttr.anone →
      pyDictGet m.moduleDict "dataflow" = PyAttr.anone ∧
      pyDictGet m.moduleDict "main" = PyAttr.anone := by
    intro m hloc
    rw [locateMethod] at hloc
    revert hloc
    cases hd : pyDictGet m.moduleDict "dataflow" <;> intro hloc
    · exact ⟨rfl, hloc⟩
    · cases hloc
  constructor
  · constructor
    · rintro ⟨msg, hmsg⟩
      rw [DataflowExecutor.from_namespace] at hmsg
      split at hmsg
      · rename_i hns
        exact Or.inl hns
      · rename_i m hns
        split at hmsg
        · rename_i hloc
          exact Or.inr (Or.inl ⟨m, hns, hanone m hloc⟩)
        · rename_i c argc ty inh hloc
          split at hmsg
          · rename_i hc
            exact Or.inr (Or.inr ⟨m, c, argc, ty, inh, hns, hloc, hc⟩)
          · cases hmsg
    · rintro (hns | ⟨m, hns, hd, hmn⟩ | ⟨m, c, argc, ty, inh, hns, hloc, hc⟩)
      · exact ⟨_, by rw [DataflowExecutor.from_namespace, hns]⟩
      · have hloc : locateMethod m = PyAttr.anone := by
          rw [locateMethod, hd]
          exact hmn
        refine ⟨"The dataflow module defined does not contain a \"dataflow(pipeline, catalog, args)\" method.", ?_⟩
        rw [DataflowExecutor.from_namespace, hns]
        show (match locateMethod m with
          | PyAttr.anone => Except.error "The dataflow module defined does not contain a \"dataflow(pipeline, catalog, args)\" method."
          | PyAttr.aobj c argc ty inh =>
            if c = false ∨ argc ≠ 3 then
              Except.error "The dataflow module defined does not contain a \"dataflow(pipeline, catalog, args)\" method."
            else Except.ok (DataflowExecutor.mk (PyAttr.aobj c argc ty inh) ns)) = _
        rw [hloc]
      · refine ⟨"The dataflow module defined does not contain a \"dataflow(pipeline, catalog, args)\" method.", ?_⟩
        rw [DataflowExecutor.from_namespace, hns]
        show (match locateMethod m with
          | PyAttr.anone => Except.error "The dataflow module defined does not contain a \"dataflow(pipeline, catalog, args)\" method."
          | PyAttr.aobj c argc ty inh =>
            if c = false ∨ argc ≠ 3 then
              Except.error "The dataflow module defined does not contain a \"dataflow(pipeline, catalog, args)\" method."
            else Except.ok (DataflowExecutor.mk (PyAttr.aobj c argc ty inh) ns)) = _
        rw [hloc]
        exact if_pos hc
  · intro m c argc ty inh hns hloc hc ha
    rw [DataflowExecutor.from_namespace, hns]
    show (match locateMethod m with
      | PyAttr.anone => Except.error "The dataflow module defined does not contain a \"dataflow(pipeline, catalog, args)\" method."
      | PyAttr.aobj c argc ty inh =>
        if c = false ∨ argc ≠ 3 then
          Except.error "The dataflow module defined does not contain a \"dataflow(pipeline, catalog, args)\" method."
        else Except.ok (DataflowExecutor.mk (PyAttr.aobj c argc ty inh) ns)) = _
    rw [hloc]
    simp [hc, ha]

/-- Witness for C7: a namespace whose dataflow module exports a 3-argument
callable `main` yields an executor; hypotheses are discharged concretely. -/
theorem C7_from_namespace_config_witness :
    ((∃ msg, DataflowExecutor.from_namespace
        [("dataflow", ExecNSVal.vmodule ⟨[("main", PyAttr.aobj true 3 false false)]⟩)] =
        Except.error msg) ↔
      (((dictGet [("dataflow", ExecNSVal.vmodule ⟨[("main", PyAttr.aobj true 3 false false)]⟩)]
          "dataflow").getD ExecNSVal.vnone = ExecNSVal.vnone) ∨
       (∃ m, (dictGet [("dataflow", ExecNSVal.vmodule ⟨[("main", PyAttr.aobj true 3 false false)]⟩)]
          "dataflow").getD ExecNSVal.vnone = ExecNSVal.vmodule m ∧
         pyDictGet m.moduleDict "dataflow" = PyAttr.anone ∧
         pyDictGet m.moduleDict "main" = PyAttr.anone) ∨
       (∃ m c argc ty inh,
         (dictGet [("dataflow", ExecNSVal.vmodule ⟨[("main", PyAttr.aobj true 3 false false)]⟩)]
          "dataflow").getD ExecNSVal.vnone = ExecNSVal.vmodule m ∧
         locateMethod m = PyAttr.aobj c argc ty inh ∧ (c = false ∨ argc ≠ 3)))) ∧
    DataflowExecutor.from_namespace
        [("dataflow", ExecNSVal.vmodule ⟨[("main", PyAttr.aobj true 3 false false)]⟩)] =
      Except.ok ⟨PyAttr.aobj true 3 false false,
        [("dataflow", ExecNSVal.vmodule ⟨[("main", PyAttr.aobj true 3 false false)]⟩)]⟩ := by
  have h := C7_from_namespace_config
    [("dataflow", ExecNSVal.vmodule ⟨[("main", PyAttr.aobj true 3 false false)]⟩)]
  exact ⟨h.1, h.2 ⟨[("main", PyAttr.aobj true 3 false false)]⟩ true 3 false false
    rfl rfl rfl rfl⟩

/-- What a command handler returns to the session: what it wrote to the
interactive error stream, and the value handed back. -/
structure MagicOutcome (ρ : Type) where
  stderrOut : String
  result : Option ρ
deriving DecidableEq

/-- The body of the `%dataflow` magic's `try` block: build the executor from
the namespace and run `executor.execute(line)` (the latter abstracted, since
parsing and the pipeline run are external collaborators). -/
def dataflowMagicBody {ρ : Type} (ns : ExecNS)
    (execute : DataflowExecutor → Except String ρ) : Except String ρ :=
  (DataflowExecutor.from_namespace ns).bind execute

/-- The `%dataflow` line magic: `try: ... except Exception as e:
sys.stderr.write(e.message); return None`. -/
def dataflowMagic {ρ : Type} (ns : ExecNS)
    (execute : DataflowExecutor → Except String ρ) : MagicOutcome ρ :=
  match dataflowMagicBody ns execute with
  | Except.error e => ⟨e, none⟩
  | Except.ok p => ⟨"", some p⟩

/-- The body of the `%ptransform` magic's `try` block. -/
def ptransformMagicBody {ρ : Type} (ns : ExecNS) (name : String)
    (execute : PTransformExecutor → Except String ρ) : Except String ρ :=
  (PTransformExecutor.from_namespace ns name).bind execute

/-- The `%ptransform` line magic's `try`/`except` dispatch. -/
def ptransformMagic {ρ : Type} (ns : ExecNS) (name : String)
    (execute : PTransformExecutor → Except String ρ) : MagicOutcome ρ :=
  match ptransformMagicBody ns name execute with
  | Except.error e => ⟨e, none⟩
  | Except.ok p => ⟨"", some p⟩

/-- Claim C8: every error raised during execution of either command entry
point is caught at the dispatch boundary; its message is written to the
interactive error stream and the command returns no result instead of
propagating the exception. -/
theorem C8_magic_error_policy {ρ : Type} :
    (∀ (ns : ExecNS) (execute : DataflowExecutor → Except String ρ) (e : String),
      dataflowMagicBody ns execute = Except.error e →
      dataflowMagic ns execute = ⟨e, none⟩) ∧
    (∀ (ns : ExecNS) (name : String)
      (execute : PTransformExecutor → Except String ρ) (e : String),
      ptransformMagicBody ns name execute = Except.error e →
      ptransformMagic ns name execute = ⟨e, none⟩) := by
  constructor
  · intro ns execute e he
    rw [dataflowMagic, he]
  · intro ns name execute e he
    rw [ptransformMagic, he]

/-- Witness for C8: on an empty namespace both magic bodies fail and both
handlers write the message and return `None`. -/
theorem C8_magic_error_policy_witness :
    (dataflowMagicBody ([] : ExecNS) (fun _ => Except.ok (0 : Nat)) =
      Except.error "A module named \"dataflow\" was not found in this notebook." ∧
     dataflowMagic ([] : ExecNS) (fun _ => Except.ok (0 : Nat)) =
      ⟨"A module named \"dataflow\" was not found in this notebook.", none⟩) ∧
    (ptransformMagicBody ([] : ExecNS) "Double" (fun _ => Except.ok (0 : Nat)) =
      Except.error "A module named \"dataflow\" was not found in this notebook." ∧
     ptransformMagic ([] : ExecNS) "Double" (fun _ => Except.ok (0 : Nat)) =
      ⟨"A module named \"dataflow\" was not found in this notebook.", none⟩) := by
  refine ⟨⟨rfl, ?_⟩, ⟨rfl, ?_⟩⟩
  · exact (C8_magic_error_policy (ρ := Nat)).1 [] _ _ rfl
  · exact (C8_magic_error_policy (ρ := Nat)).2 [] "Double" _ _ rfl

/-! ## Graph Builder (`DataflowGraphBuilder`)

The pipeline's visitation protocol fires `enter_composite_transform`,
`visit_transform` and `leave_composite_transform` in depth-first order over
the transform tree.  The builder's shared mutable node dicts are represented
by a store keyed by their (unique) full label. -/

/-- Python `str.rfind`: the greatest index at which the character occurs
(`none` plays the role of `-1`). -/
def pyRfind (c : Char) : List Char → Option Nat
  | [] => none
  | a :: rest =>
    match pyRfind c rest with
    | some i => some (i + 1)
    | none => if a = c then some 0 else none

/-- The `name` computed inside `add_node`: `label[slash_index + 1:]` when
`label.rfind('/') > 0`, the full label otherwise. -/
def displayName (label : String) : String :=
  match pyRfind '/' label.toList with
  | some i => if 0 < i then String.mk (label.toList.drop (i + 1)) else label
  | none => label

/-- A pipeline transform node: its full slash-delimited label, the full
labels of the producers of its input values, and its child transforms when
composite. -/
inductive TransformTree where
  | leaf (full_label : String) (inputs : List String) : TransformTree
  | composite (full_label : String) (inputs : List String)
      (children : List TransformTree) : TransformTree

def TransformTree.full_label : TransformTree → String
  | .leaf l _ => l
  | .composite l _ _ => l

def TransformTree.inputs : TransformTree → List String
  | .leaf _ i => i
  | .composite _ i _ => i

def TransformTree.children : TransformTree → List TransformTree
  | .leaf _ _ => []
  | .composite _ _ cs => cs

mutual
def preorder : TransformTree → List TransformTree
  | .leaf l i => [.leaf l i]
  | .composite l i cs => .composite l i cs :: preorderF cs
def preorderF : List TransformTree → List TransformTree
  | [] => []
  | t :: ts => preorder t ++ preorderF ts
end

mutual
def treeSize : TransformTree → Nat
  | .leaf _ _ => 1
  | .composite _ _ cs => 1 + forestSize cs
def forestSize : List TransformTree → Nat
  | [] => 0
  | t :: ts => treeSize t + forestSize ts
end

/-- One graph node dict `{'id', 'name', 'nodes', 'edges'}`; the children in
`nodes` are recorded by their labels (store addresses). -/
structure GraphNodeData where
  id : String
  name : String
  nodes : List String
  edges : List String
deriving DecidableEq

abbrev NodeMap := List (String × GraphNodeData)

/-- The builder's mutable state: `_nodes` (top-level labels), `_node_stack`
(stack of open composites, top at the end), `_node_map`. -/
structure BuilderState where
  nodes : List String
  node_stack : List String
  node_map : NodeMap
deriving DecidableEq

def initState : BuilderState := ⟨[], [], []⟩

/-- The edge-resolution loop of `add_node`: for every input value, append the
consumer's label to the producer's edge list; an unknown producer label is a
`KeyError` (contract violation by the collaborator). -/
def addEdges (m : NodeMap) (inputs : List String) (consumer : String) :
    Except String NodeMap :=
  match inputs with
  | [] => Except.ok m
  | L :: rest =>
    match dictGet m L with
    | none => Except.error ("KeyError: " ++ L)
    | some g =>
      addEdges (dictSet m L { g with edges := g.edges ++ [consumer] }) rest consumer

/-- `DataflowGraphBuilder.add_node(transform_node)`: create the node dict,
register it in `_node_map`, append it to the stack top's children (or to
`_nodes` when the stack is empty), then resolve edges for its inputs. -/
def newNodeDict (full_label : String) : GraphNodeData :=
  ⟨full_label, displayName full_label, [], []⟩

def add_node (full_label : String) (inputs : List String) (st : BuilderState) :
    Except String BuilderState :=
  match st.node_stack.getLast? with
  | none =>
    match addEdges (dictSet st.node_map full_label (newNodeDict full_label))
        inputs full_label with
    | Except.error e => Except.error e
    | Except.ok m2 => Except.ok ⟨st.nodes ++ [full_label], st.node_stack, m2⟩
  | some top =>
    match dictGet (dictSet st.node_map full_label (newNodeDict full_label)) top with
    | none => Except.error ("KeyError: " ++ top)
    | some gt =>
      match addEdges
          (dictSet (dictSet st.node_map full_label (newNodeDict full_label)) top
            { gt with nodes := gt.nodes ++ [full_label] })
          inputs full_label with
      | Except.error e => Except.error e
      | Except.ok m3 => Except.ok ⟨st.nodes, st.node_stack, m3⟩

/-- `enter_composite_transform`: ignore the empty-labeled pipeline root,
otherwise add the node and push it. -/
def enter_composite_transform (full_label : String) (inputs : List String)
    (st : BuilderState) : Except String BuilderState :=
  if full_label.length = 0 then Except.ok st
  else
    match add_node full_label inputs st with
    | Except.error e => Except.error e
    | Except.ok st' =>
      Except.ok { st' with node_stack := st'.node_stack ++ [full_label] }

/-- `leave_composite_transform`: ignore the root, otherwise pop the stack. -/
def leave_composite_transform (full_label : String) (st : BuilderState) :
    Except String BuilderState :=
  if full_label.length = 0 then Except.ok st
  else Except.ok { st with node_stack := st.node_stack.dropLast }

mutual
/-- Depth-first traversal of one transform, as driven by `pipeline.visit`:
composites get enter/children/leave, leaves get `visit_transform`
(an unconditional `add_node`). -/
def visitTree : TransformTree → BuilderState → Except String BuilderState
  | .leaf l ins, st => add_node l ins st
  | .composite l ins cs, st =>
    match enter_composite_transform l ins st with
    | Except.error e => Except.error e
    | Except.ok st1 =>
      match visitForest cs st1 with
      | Except.error e => Except.error e
      | Except.ok st2 => leave_composite_transform l st2
def visitForest : List TransformTree → BuilderState → Except String BuilderState
  | [], st => Except.ok st
  | t :: ts, st =>
    match visitTree t st with
    | Except.error e => Except.error e
    | Except.ok st1 => visitForest ts st1
end

/-- A materialized nested graph node, as the returned `_nodes` structure
dereferences to. -/
inductive GraphNode where
  | mk (id : String) (name : String) (nodes : List GraphNode)
      (edges : List String) : GraphNode

def GraphNode.id : GraphNode → String
  | .mk i _ _ _ => i

def GraphNode.name : GraphNode → String
  | .mk _ n _ _ => n

def GraphNode.childNodes : GraphNode → List GraphNode
  | .mk _ _ ns _ => ns

def GraphNode.edges : GraphNode → List String
  | .mk _ _ _ es => es

/-- Dereference the label-addressed store into the nested dict structure;
the fuel bounds the nesting depth (`none` would mean a cyclic store, which a
unique-label pipeline never produces). -/
def materialize (m : NodeMap) : Nat → String → Option GraphNode
  | 0, _ => none
  | fuel + 1, l =>
    match dictGet m l with
    | none => none
    | some g =>
      match g.nodes.mapM (materialize m fuel) with
      | none => none
      | some kids => some (.mk g.id g.name kids g.edges)

/-- `DataflowGraphBuilder().visit(pipeline)`: traverse from the root and
return `self._nodes`, read back as the nested structure it references. -/
def DataflowGraphBuilder.visit (p : TransformTree) :
    Except String (Option (List GraphNode)) :=
  match visitTree p initState with
  | Except.error e => Except.error e
  | Except.ok st =>
    Except.ok (st.nodes.mapM (materialize st.node_map (st.node_map.length + 1)))

/-! ### Specification-side descriptions of the builder's result -/

/-- All full labels of a forest, in visitation (preorder) order. -/
def labelsOfF (ts : List TransformTree) : List String :=
  (preorderF ts).map TransformTree.full_label

/-- The `(full_label, inputs)` sequence of all `add_node` calls a forest
triggers, in order. -/
def seqOfF (ts : List TransformTree) : List (String × List String) :=
  (preorderF ts).map fun u => (u.full_label, u.inputs)

/-- The edge contributions to producer `L` from a sequence of `add_node`
calls: each caller appends its own label once per input naming `L`. -/
def consumerEdges (L : String) : List (String × List String) → List String
  | [] => []
  | (c, ins) :: rest => List.replicate (ins.count L) c ++ consumerEdges L rest

/-- The part of an `add_node` call sequence strictly after the call that
created `L`. -/
def seqAfter (L : String) : List (String × List String) → List (String × List String)
  | [] => []
  | (c, _) :: rest => if c = L then rest else seqAfter L rest

/-- Producer-before-consumer: every input of every call refers to an already
known label (initially the store's keys, growing with each call). -/
def ProdOKb (known : List String) : List (String × List String) → Bool
  | [] => true
  | (c, ins) :: rest =>
    (ins.all fun L => known.contains L) && ProdOKb (known ++ [c]) rest

def findTree (K : String) (l : List TransformTree) : Option TransformTree :=
  l.find? fun u => u.full_label == K

/-- The store entry a forest traversal creates for a fresh label `K`. -/
def expectedEntry (ts : List TransformTree) (K : String) : Option GraphNodeData :=
  match findTree K (preorderF ts) with
  | some u => some ⟨K, displayName K, u.children.map TransformTree.full_label,
      consumerEdges K (seqAfter K (seqOfF ts))⟩
  | none => none

/-- How a forest traversal transforms the store, pointwise per key. -/
def expectedUpdate (st : BuilderState) (ts : List TransformTree) (K : String) :
    Option GraphNodeData :=
  match dictGet st.node_map K with
  | some g => some { g with
      nodes := if st.node_stack.getLast? = some K
        then g.nodes ++ ts.map TransformTree.full_label else g.nodes,
      edges := g.edges ++ consumerEdges K (seqOfF ts) }
  | none => expectedEntry ts K

/-! ### Builder support lemmas -/

theorem preorderF_nil : preorderF [] = [] := rfl

theorem preorderF_cons (t : TransformTree) (ts : List TransformTree) :
    preorderF (t :: ts) = preorder t ++ preorderF ts := rfl

theorem full_label_leaf (l : String) (i : List String) :
    (TransformTree.leaf l i).full_label = l := rfl

theorem full_label_composite (l : String) (i : List String)
    (cs : List TransformTree) : (TransformTree.composite l i cs).full_label = l := rfl

theorem inputs_leaf (l : String) (i : List String) :
    (TransformTree.leaf l i).inputs = i := rfl

theorem inputs_composite (l : String) (i : List String) (cs : List TransformTree) :
    (TransformTree.composite l i cs).inputs = i := rfl

theorem children_leaf (l : String) (i : List String) :
    (TransformTree.leaf l i).children = [] := rfl

theorem children_composite (l : String) (i : List String) (cs : List TransformTree) :
    (TransformTree.composite l i cs).children = cs := rfl

theorem preorder_leaf (l : String) (i : List String) :
    preorder (.leaf l i) = [.leaf l i] := rfl

theorem preorder_composite (l : String) (i : List String)
    (cs : List TransformTree) :
    preorder (.composite l i cs) = .composite l i cs :: preorderF cs := rfl

theorem preorderF_single (t : TransformTree) : preorderF [t] = preorder t := by
  rw [preorderF_cons, preorderF_nil, List.append_nil]

theorem labelsOfF_cons (t : TransformTree) (ts : List TransformTree) :
    labelsOfF (t :: ts) = labelsOfF [t] ++ labelsOfF ts := by
  simp [labelsOfF, preorderF_cons, preorderF_single, preorderF_nil]

theorem seqOfF_cons (t : TransformTree) (ts : List TransformTree) :
    seqOfF (t :: ts) = seqOfF [t] ++ seqOfF ts := by
  simp [seqOfF, preorderF_cons, preorderF_single, preorderF_nil]

theorem seqOfF_leaf (l : String) (i : List String) :
    seqOfF [.leaf l i] = [(l, i)] := by
  simp [seqOfF, preorderF_single, preorder_leaf, full_label_leaf, inputs_leaf]

theorem seqOfF_composite (l : String) (i : List String) (cs : List TransformTree) :
    seqOfF [.composite l i cs] = (l, i) :: seqOfF cs := by
  simp [seqOfF, preorderF_single, preorder_composite, full_label_composite,
    inputs_composite]

theorem labelsOfF_leaf (l : String) (i : List String) :
    labelsOfF [.leaf l i] = [l] := by
  simp [labelsOfF, preorderF_single, preorder_leaf, full_label_leaf]

theorem labelsOfF_composite (l : String) (i : List String) (cs : List TransformTree) :
    labelsOfF [.composite l i cs] = l :: labelsOfF cs := by
  simp [labelsOfF, preorderF_single, preorder_composite, full_label_composite]

theorem seqOfF_fst (ts : List TransformTree) :
    (seqOfF ts).map Prod.fst = labelsOfF ts := by
  simp [seqOfF, labelsOfF]

theorem consumerEdges_append (L : String) (a b : List (String × List String)) :
    consumerEdges L (a ++ b) = consumerEdges L a ++ consumerEdges L b := by
  induction a with
  | nil => simp [consumerEdges]
  | cons p rest ih =>
    obtain ⟨c, ins⟩ := p
    simp [consumerEdges, ih, List.append_assoc]

theorem mem_consumerEdges (e L : String) (s : List (String × List String)) :
    e ∈ consumerEdges L s ↔ ∃ p ∈ s, p.1 = e ∧ L ∈ p.2 := by
  induction s with
  | nil => simp [consumerEdges]
  | cons p rest ih =>
    obtain ⟨c, ins⟩ := p
    simp only [consumerEdges, List.mem_append, ih, List.mem_replicate,
      List.mem_cons]
    constructor
    · rintro (⟨hcnt, he⟩ | ⟨q, hq, hqe, hLq⟩)
      · refine ⟨(c, ins), Or.inl rfl, he.symm, ?_⟩
        have : 0 < ins.count L := Nat.pos_of_ne_zero hcnt
        exact List.count_pos_iff.mp this
      · exact ⟨q, Or.inr hq, hqe, hLq⟩
    · rintro ⟨q, hq | hq, hqe, hLq⟩
      · subst hq
        refine Or.inl ⟨?_, hqe.symm⟩
        have : 0 < ins.count L := List.count_pos_iff.mpr hLq
        omega
      · exact Or.inr ⟨q, hq, hqe, hLq⟩

theorem seqAfter_append_left (L : String) (a b : List (String × List String))
    (h : L ∈ a.map Prod.fst) : seqAfter L (a ++ b) = seqAfter L a ++ b := by
  induction a with
  | nil => simp at h
  | cons p rest ih =>
    obtain ⟨c, ins⟩ := p
    by_cases hc : c = L
    · simp [seqAfter, hc]
    · simp only [List.map_cons, List.mem_cons] at h
      rcases h with h | h

      · exact absurd h.symm hc
      · simp [seqAfter, hc, ih h]

theorem seqAfter_append_right (L : String) (a b : List (String × List String))
    (h : L ∉ a.map Prod.fst) : seqAfter L (a ++ b) = seqAfter L b := by
  induction a with
  | nil => simp
  | cons p rest ih =>
    obtain ⟨c, ins⟩ := p
    simp only [List.map_cons, List.mem_cons] at h
    push_neg at h
    have hc : c ≠ L := fun he => h.1 he.symm
    simp [seqAfter, hc, ih h.2]

theorem mem_of_mem_seqAfter (L : String) (q : String × List String)
    (s : List (String × List String)) (h : q ∈ seqAfter L s) : q ∈ s := by
  induction s with
  | nil => simp [seqAfter] at h
  | cons p rest ih =>
    obtain ⟨c, ins⟩ := p
    by_cases hc : c = L
    · simp only [seqAfter, if_pos hc] at h
      exact List.mem_cons_of_mem _ h
    · simp only [seqAfter, if_neg hc] at h
      exact List.mem_cons_of_mem _ (ih h)

theorem ProdOKb_append (known : List String) (a b : List (String × List String)) :
    ProdOKb known (a ++ b) =
      (ProdOKb known a && ProdOKb (known ++ a.map Prod.fst) b) := by
  induction a generalizing known with
  | nil => simp [ProdOKb]
  | cons p rest ih =>
    obtain ⟨c, ins⟩ := p
    simp [ProdOKb, ih, Bool.and_assoc, List.append_assoc]

theorem ProdOKb_cons (known : List String) (c : String) (ins : List String)
    (rest : List (String × List String)) :
    ProdOKb known ((c, ins) :: rest) =
      ((ins.all fun L => known.contains L) && ProdOKb (known ++ [c]) rest) := rfl

theorem contains_eq_true_iff (known : List String) (L : String) :
    known.contains L = true ↔ L ∈ known := by
  constructor
  · exact fun h => List.mem_of_elem_eq_true h
  · exact fun h => List.elem_eq_true_of_mem h

/-- The head consequence of `ProdOKb`: all inputs of the first call are
already known. -/
theorem ProdOKb_head (known : List String) (c : String) (ins : List String)
    (rest : List (String × List String))
    (h : ProdOKb known ((c, ins) :: rest) = true) :
    (∀ L ∈ ins, L ∈ known) ∧ ProdOKb (known ++ [c]) rest = true := by
  rw [ProdOKb_cons, Bool.and_eq_true] at h
  refine ⟨fun L hL => ?_, h.2⟩
  rw [List.all_eq_true] at h
  exact (contains_eq_true_iff known L).mp (h.1 L hL)

theorem addEdges_spec (inputs : List String) (m : NodeMap) (c : String)
    (h : ∀ L ∈ inputs, (dictGet m L).isSome) :
    ∃ m', addEdges m inputs c = Except.ok m' ∧
      m'.map Prod.fst = m.map Prod.fst ∧
      ∀ K, dictGet m' K = (dictGet m K).map fun g =>
        { g with edges := g.edges ++ List.replicate (inputs.count K) c } := by
  induction inputs generalizing m with
  | nil =>
    refine ⟨m, rfl, rfl, fun K => ?_⟩
    cases hg : dictGet m K <;> simp [hg]
  | cons L rest ih =>
    obtain ⟨g, hg⟩ := Option.isSome_iff_exists.mp (h L (List.mem_cons_self L rest))
    have hA : ∀ K, dictGet (dictSet m L { g with edges := g.edges ++ [c] }) K =
        if K = L then some { g with edges := g.edges ++ [c] }
        else dictGet m K := by
      intro K
      by_cases hKL : K = L
      · subst hKL
        simp [dictGet_dictSet_self]
      · simp [dictGet_dictSet_ne m L K _ hKL, hKL]
    have hrest : ∀ L' ∈ rest, (dictGet (dictSet m L { g with edges := g.edges ++ [c] }) L').isSome := by
      intro L' hL'
      rw [hA L']
      by_cases hKL : L' = L
      · simp [hKL]
      · rw [if_neg hKL]
        exact h L' (List.mem_cons_of_mem _ hL')
    obtain ⟨m', hrun, hkeys', hpt⟩ := ih _ hrest
    have hkeysA : (dictSet m L { g with edges := g.edges ++ [c] }).map Prod.fst =
        m.map Prod.fst :=
      keys_dictSet_of_isSome m L _ (by rw [hg]; rfl)
    refine ⟨m', ?_, by rw [hkeys', hkeysA], fun K => ?_⟩
    · simp only [addEdges, hg]
      exact hrun
    · rw [hpt K, hA K]
      by_cases hKL : K = L
      · subst hKL
        rw [hg]
        have hcnt : (K :: rest).count K = rest.count K + 1 := by
          simp [List.count_cons]
        simp [hcnt, List.replicate_succ, List.append_assoc]
      · rw [if_neg hKL]
        have hLK : ¬L = K := fun he => hKL he.symm
        have hcnt : (L :: rest).count K = rest.count K := by
          simp [List.count_cons, hLK]
        cases hgK : dictGet m K
        · simp
        · simp [hcnt]

theorem add_node_spec (l : String) (ins : List String) (st : BuilderState)
    (hfresh : dictGet st.node_map l = none)
    (hins : ∀ L ∈ ins, (dictGet st.node_map L).isSome)
    (hstk : ∀ T ∈ st.node_stack, (dictGet st.node_map T).isSome) :
    ∃ st', add_node l ins st = Except.ok st' ∧
      st'.node_stack = st.node_stack ∧
      st'.node_map.map Prod.fst = st.node_map.map Prod.fst ++ [l] ∧
      st'.nodes = st.nodes ++ (if st.node_stack = [] then [l] else []) ∧
      ∀ K, dictGet st'.node_map K =
        if K = l then
          some ⟨l, displayName l, [], List.replicate (ins.count l) l⟩
        else
          (dictGet st.node_map K).map fun g =>
            { g with
              nodes := if st.node_stack.getLast? = some K then g.nodes ++ [l]
                else g.nodes,
              edges := g.edges ++ List.replicate (ins.count K) l } := by
  have hm1 : ∀ K, dictGet (dictSet st.node_map l (newNodeDict l)) K =
      if K = l then some (newNodeDict l) else dictGet st.node_map K := by
    intro K
    by_cases hKL : K = l
    · subst hKL
      simp [dictGet_dictSet_self]
    · simp [dictGet_dictSet_ne st.node_map l K _ hKL, hKL]
  have hm1keys : (dictSet st.node_map l (newNodeDict l)).map Prod.fst =
      st.node_map.map Prod.fst ++ [l] :=
    keys_dictSet_of_fresh st.node_map l _ hfresh
  have hm1some : ∀ L ∈ ins, (dictGet (dictSet st.node_map l (newNodeDict l)) L).isSome := by
    intro L hL
    rw [hm1 L]
    by_cases hKL : L = l
    · simp [hKL]
    · rw [if_neg hKL]
      exact hins L hL
  cases hlast : st.node_stack.getLast? with
  | none =>
    have hempty : st.node_stack = [] := List.getLast?_eq_none_iff.mp hlast
    obtain ⟨m2, hrun, hkeys2, hpt2⟩ := addEdges_spec ins _ l hm1some
    refine ⟨⟨st.nodes ++ [l], st.node_stack, m2⟩, ?_, rfl, ?_, ?_, ?_⟩
    · simp only [add_node, hlast, hrun]
    · rw [hkeys2, hm1keys]
    · simp [hempty]
    · intro K
      rw [hpt2 K, hm1 K]
      by_cases hKL : K = l
      · subst hKL
        simp [newNodeDict]
      · rw [if_neg hKL, if_neg hKL]
        cases hgK : dictGet st.node_map K
        · simp
        · simp [hlast]
  | some top =>
    have htopmem : top ∈ st.node_stack :=
      List.mem_of_mem_getLast? (by rw [hlast]; rfl)
    have htopne : top ≠ l := by
      intro he
      have := hstk top htopmem
      rw [he, hfresh] at this
      cases this
    obtain ⟨gt, hgt⟩ := Option.isSome_iff_exists.mp (hstk top htopmem)
    have hm1top : dictGet (dictSet st.node_map l (newNodeDict l)) top = some gt := by
      rw [hm1 top, if_neg htopne, hgt]
    have hm2 : ∀ K, dictGet (dictSet (dictSet st.node_map l (newNodeDict l)) top
        { gt with nodes := gt.nodes ++ [l] }) K =
        if K = top then some { gt with nodes := gt.nodes ++ [l] }
        else if K = l then some (newNodeDict l) else dictGet st.node_map K := by
      intro K
      by_cases hKt : K = top
      · subst hKt
        simp [dictGet_dictSet_self]
      · rw [dictGet_dictSet_ne _ top K _ hKt, if_neg hKt, hm1 K]
    have hm2keys : (dictSet (dictSet st.node_map l (newNodeDict l)) top
        { gt with nodes := gt.nodes ++ [l] }).map Prod.fst =
        st.node_map.map Prod.fst ++ [l] := by
      rw [keys_dictSet_of_isSome _ top _ (by rw [hm1top]; rfl), hm1keys]
    have hm2some : ∀ L ∈ ins, (dictGet (dictSet (dictSet st.node_map l (newNodeDict l)) top
        { gt with nodes := gt.nodes ++ [l] }) L).isSome := by
      intro L hL
      rw [hm2 L]
      by_cases hKt : L = top
      · simp [hKt]
      · rw [if_neg hKt]
        by_cases hKl : L = l
        · simp [hKl]
        · rw [if_neg hKl]
          exact hins L hL
    obtain ⟨m3, hrun, hkeys3, hpt3⟩ := addEdges_spec ins _ l hm2some
    have hne : st.node_stack ≠ [] := by
      intro he
      rw [he] at hlast
      cases hlast
    refine ⟨⟨st.nodes, st.node_stack, m3⟩, ?_, rfl, ?_, ?_, ?_⟩
    · simp only [add_node, hlast, hm1top, hrun]
    · rw [hkeys3, hm2keys]
    · simp [hne]
    · intro K
      rw [hpt3 K, hm2 K]
      by_cases hKt : K = top
      · subst hKt
        rw [if_pos rfl, if_neg htopne, hgt]
        simp [hlast]
      · rw [if_neg hKt]
        by_cases hKl : K = l
        · subst hKl
          simp [newNodeDict]
        · rw [if_neg hKl, if_neg hKl]
          have htK : ¬top = K := fun he => hKt he.symm
          cases hgK : dictGet st.node_map K
          · simp
          · simp [hlast, htK]

theorem length_ne_zero_of_ne_empty (s : String) (h : s ≠ "") : ¬s.length = 0 := by
  intro h0
  apply h
  cases s with
  | mk data =>
    simp [String.length] at h0
    simp [h0]

theorem labelsOfF_nil : labelsOfF [] = [] := rfl

theorem seqOfF_nil : seqOfF [] = [] := rfl

theorem consumerEdges_nil (K : String) : consumerEdges K [] = [] := rfl

theorem consumerEdges_single (K l : String) (ins : List String) :
    consumerEdges K [(l, ins)] = List.replicate (ins.count K) l := by
  simp [consumerEdges]

theorem seqAfter_cons_self (l : String) (ins : List String)
    (s : List (String × List String)) : seqAfter l ((l, ins) :: s) = s := by
  simp [seqAfter]

theorem findTree_nil (K : String) : findTree K [] = none := rfl

theorem findTree_cons (K : String) (u : TransformTree) (l : List TransformTree) :
    findTree K (u :: l) =
      if u.full_label = K then some u else findTree K l := by
  rw [findTree, List.find?_cons]
  split <;> rename_i hsp
  · rw [if_pos (beq_iff_eq.mp hsp)]
  · rw [if_neg]
    · rfl
    · intro he
      rw [he] at hsp
      simp at hsp

theorem findTree_append (K : String) (a b : List TransformTree) :
    findTree K (a ++ b) = (findTree K a).or (findTree K b) := by
  rw [findTree, findTree, findTree, List.find?_append]

theorem findTree_eq_none (K : String) (l : List TransformTree)
    (h : K ∉ l.map TransformTree.full_label) : findTree K l = none := by
  rw [findTree, List.find?_eq_none]
  intro u hu
  intro hb
  exact h (List.mem_map.mpr ⟨u, hu, beq_iff_eq.mp hb⟩)

theorem findTree_mem_label (K : String) (l : List TransformTree)
    (u : TransformTree) (h : findTree K l = some u) :
    u ∈ l ∧ u.full_label = K := by
  rw [findTree] at h
  have h2 := List.find?_some h
  simp only [beq_iff_eq] at h2
  exact ⟨List.mem_of_find?_eq_some h, h2⟩

theorem findTree_none_not_mem (K : String) (l : List TransformTree)
    (h : findTree K l = none) : K ∉ l.map TransformTree.full_label := by
  rw [findTree, List.find?_eq_none] at h
  intro hmem
  obtain ⟨u, hu, hul⟩ := List.mem_map.mp hmem
  exact h u hu (beq_iff_eq.mpr hul)

theorem expectedUpdate_some (st : BuilderState) (ts : List TransformTree)
    (K : String) (g : GraphNodeData) (hg : dictGet st.node_map K = some g) :
    expectedUpdate st ts K = some { g with
      nodes := if st.node_stack.getLast? = some K
        then g.nodes ++ ts.map TransformTree.full_label else g.nodes,
      edges := g.edges ++ consumerEdges K (seqOfF ts) } := by
  rw [expectedUpdate, hg]

theorem expectedUpdate_none (st : BuilderState) (ts : List TransformTree)
    (K : String) (hg : dictGet st.node_map K = none) :
    expectedUpdate st ts K = expectedEntry ts K := by
  rw [expectedUpdate, hg]

theorem expectedEntry_some (ts : List TransformTree) (K : String)
    (u : TransformTree) (h : findTree K (preorderF ts) = some u) :
    expectedEntry ts K = some ⟨K, displayName K,
      u.children.map TransformTree.full_label,
      consumerEdges K (seqAfter K (seqOfF ts))⟩ := by
  rw [expectedEntry, h]

theorem expectedEntry_none (ts : List TransformTree) (K : String)
    (h : findTree K (preorderF ts) = none) : expectedEntry ts K = none := by
  rw [expectedEntry, h]

theorem expectedUpdate_nil (st : BuilderState) (K : String) :
    expectedUpdate st [] K = dictGet st.node_map K := by
  cases hg : dictGet st.node_map K with
  | none => rw [expectedUpdate_none st [] K hg, expectedEntry_none [] K rfl]
  | some g =>
    rw [expectedUpdate_some st [] K g hg]
    simp [seqOfF_nil, consumerEdges_nil]

/-- Composing the pointwise store description over a sibling step: the update
of `t :: ts'` equals the update of `ts'` applied over the state `t` left. -/
theorem expectedUpdate_sibling (st st1 : BuilderState) (t : TransformTree)
    (ts' : List TransformTree)
    (hstack1 : st1.node_stack = st.node_stack)
    (hstk : ∀ T ∈ st.node_stack, (dictGet st.node_map T).isSome)
    (hpt1 : ∀ K, dictGet st1.node_map K = expectedUpdate st [t] K) :
    ∀ K, expectedUpdate st1 ts' K = expectedUpdate st (t :: ts') K := by
  intro K
  have hseq : seqOfF (t :: ts') = seqOfF [t] ++ seqOfF ts' := seqOfF_cons t ts'
  have hpre : preorderF (t :: ts') = preorder t ++ preorderF ts' :=
    preorderF_cons t ts'
  cases hg : dictGet st.node_map K with
  | some g =>
    have e1 := expectedUpdate_some st [t] K g hg
    have eL : dictGet st1.node_map K = some { g with
        nodes := if st.node_stack.getLast? = some K
          then g.nodes ++ [t].map TransformTree.full_label else g.nodes,
        edges := g.edges ++ consumerEdges K (seqOfF [t]) } := by
      rw [hpt1 K, e1]
    rw [expectedUpdate_some st1 ts' K _ eL,
      expectedUpdate_some st (t :: ts') K g hg, hstack1, hseq,
      consumerEdges_append]
    by_cases hcond : st.node_stack.getLast? = some K
    · simp [hcond, List.append_assoc]
    · simp [hcond, List.append_assoc]
  | none =>
    have hKtop : ¬st.node_stack.getLast? = some K := by
      intro he
      have := hstk K (List.mem_of_mem_getLast? (by rw [he]; rfl))
      rw [hg] at this
      cases this
    cases hft : findTree K (preorder t) with
    | some u =>
      have hmem := findTree_mem_label K (preorder t) u hft
      have hKin : K ∈ (seqOfF [t]).map Prod.fst := by
        rw [seqOfF_fst, labelsOfF, preorderF_single]
        exact List.mem_map.mpr ⟨u, hmem.1, hmem.2⟩
      have e1 : expectedUpdate st [t] K = some ⟨K, displayName K,
          u.children.map TransformTree.full_label,
          consumerEdges K (seqAfter K (seqOfF [t]))⟩ := by
        rw [expectedUpdate_none st [t] K hg]
        exact expectedEntry_some [t] K u (by rw [preorderF_single]; exact hft)
      have eL : dictGet st1.node_map K = some ⟨K, displayName K,
          u.children.map TransformTree.full_label,
          consumerEdges K (seqAfter K (seqOfF [t]))⟩ := by
        rw [hpt1 K, e1]
      rw [expectedUpdate_some st1 ts' K _ eL,
        expectedUpdate_none st (t :: ts') K hg,
        expectedEntry_some (t :: ts') K u
          (by rw [hpre, findTree_append, hft]; rfl),
        hstack1, hseq, seqAfter_append_left K _ _ hKin, consumerEdges_append]
      simp [hKtop]
    | none =>
      have hKnotin : K ∉ (seqOfF [t]).map Prod.fst := by
        rw [seqOfF_fst, labelsOfF, preorderF_single]
        exact findTree_none_not_mem K (preorder t) hft
      have e1 : expectedUpdate st [t] K = none := by
        rw [expectedUpdate_none st [t] K hg]
        exact expectedEntry_none [t] K (by rw [preorderF_single]; exact hft)
      have eL : dictGet st1.node_map K = none := by
        rw [hpt1 K, e1]
      rw [expectedUpdate_none st1 ts' K eL,
        expectedUpdate_none st (t :: ts') K hg]
      cases hft' : findTree K (preorderF ts') with
      | some u =>
        rw [expectedEntry_some ts' K u hft',
          expectedEntry_some (t :: ts') K u
            (by rw [hpre, findTree_append, hft]; simpa using hft'),
          hseq, seqAfter_append_right K _ _ hKnotin]
      | none =>
        rw [expectedEntry_none ts' K hft',
          expectedEntry_none (t :: ts') K
            (by rw [hpre, findTree_append, hft]; simpa using hft')]

theorem treeSize_leaf (l : String) (i : List String) :
    treeSize (.leaf l i) = 1 := rfl

theorem treeSize_composite (l : String) (i : List String) (cs : List TransformTree) :
    treeSize (.composite l i cs) = 1 + forestSize cs := rfl

theorem forestSize_nil : forestSize [] = 0 := rfl

theorem forestSize_cons (t : TransformTree) (ts : List TransformTree) :
    forestSize (t :: ts) = treeSize t + forestSize ts := rfl

theorem treeSize_pos (t : TransformTree) : 1 ≤ treeSize t := by
  cases t with
  | leaf l i => rw [treeSize_leaf]
  | composite l i cs => rw [treeSize_composite]; omega

theorem seqAfter_cons_ne (L c : String) (ins : List String)
    (s : List (String × List String)) (h : c ≠ L) :
    seqAfter L ((c, ins) :: s) = seqAfter L s := by
  simp [seqAfter, h]

/-- Composing the pointwise store description over a composite's children:
the update the children perform over the pushed post-`add_node` state equals
the whole composite's update over the original state. -/
theorem expectedUpdate_push (st stA : BuilderState) (l : String)
    (ins : List String) (cs : List TransformTree)
    (hlfresh : dictGet st.node_map l = none)
    (hcount : ins.count l = 0)
    (hptA : ∀ K, dictGet stA.node_map K =
        if K = l then some ⟨l, displayName l, [], List.replicate (ins.count l) l⟩
        else (dictGet st.node_map K).map fun g =>
          { g with
            nodes := if st.node_stack.getLast? = some K then g.nodes ++ [l]
              else g.nodes,
            edges := g.edges ++ List.replicate (ins.count K) l }) :
    ∀ K, expectedUpdate ⟨stA.nodes, stA.node_stack ++ [l], stA.node_map⟩ cs K =
      expectedUpdate st [.composite l ins cs] K := by
  intro K
  by_cases hKl : K = l
  · subst hKl
    have eL : dictGet stA.node_map K = some ⟨K, displayName K, [], []⟩ := by
      rw [hptA K, if_pos rfl, hcount]
      rfl
    rw [expectedUpdate_some ⟨stA.nodes, stA.node_stack ++ [K], stA.node_map⟩ cs K _ eL,
      expectedUpdate_none st _ K hlfresh,
      expectedEntry_some [.composite K ins cs] K (.composite K ins cs)
        (by rw [preorderF_single, preorder_composite, findTree_cons,
          full_label_composite, if_pos rfl])]
    have hc1 : (stA.node_stack ++ [K]).getLast? = some K := List.getLast?_concat _
    simp [hc1, children_composite, seqOfF_composite, seqAfter_cons_self]
  · have hlK : l ≠ K := fun he => hKl he.symm
    cases hgK : dictGet st.node_map K with
    | some g =>
      have eL : dictGet stA.node_map K = some { g with
          nodes := if st.node_stack.getLast? = some K then g.nodes ++ [l]
            else g.nodes,
          edges := g.edges ++ List.replicate (ins.count K) l } := by
        rw [hptA K, if_neg hKl, hgK]
        rfl
      rw [expectedUpdate_some ⟨stA.nodes, stA.node_stack ++ [l], stA.node_map⟩ cs K _ eL,
        expectedUpdate_some st _ K g hgK]
      have hc1 : ¬(stA.node_stack ++ [l]).getLast? = some K := by
        rw [List.getLast?_concat]
        intro he
        cases he
        exact hKl rfl
      rw [if_neg hc1, seqOfF_composite]
      simp only [List.map_cons, List.map_nil, full_label_composite]
      have hce : consumerEdges K ((l, ins) :: seqOfF cs) =
          List.replicate (ins.count K) l ++ consumerEdges K (seqOfF cs) := rfl
      rw [hce]
      simp [List.append_assoc]
    | none =>
      have eL : dictGet stA.node_map K = none := by
        rw [hptA K, if_neg hKl, hgK]
        rfl
      rw [expectedUpdate_none ⟨stA.nodes, stA.node_stack ++ [l], stA.node_map⟩ cs K eL,
        expectedUpdate_none st _ K hgK]
      cases hft : findTree K (preorderF cs) with
      | some u =>
        rw [expectedEntry_some cs K u hft,
          expectedEntry_some [.composite l ins cs] K u
            (by rw [preorderF_single, preorder_composite, findTree_cons,
              full_label_composite, if_neg hlK]; exact hft),
          seqOfF_composite, seqAfter_cons_ne K l ins _ hlK]
      | none =>
        rw [expectedEntry_none cs K hft,
          expectedEntry_none [.composite l ins cs] K
            (by rw [preorderF_single, preorder_composite, findTree_cons,
              full_label_composite, if_neg hlK]; exact hft)]

/-- The central characterization of the builder traversal: over any state
whose store is fresh for the forest's (unique, non-root) labels, whose stack
entries are registered, and whose input producers respect visitation order,
the traversal succeeds and transforms the store exactly as `expectedUpdate`
describes. -/
theorem visitForest_spec (n : Nat) :
    ∀ (ts : List TransformTree) (st : BuilderState),
    forestSize ts ≤ n →
    (∀ L ∈ labelsOfF ts, dictGet st.node_map L = none) →
    "" ∉ labelsOfF ts →
    (labelsOfF ts).Nodup →
    (∀ T ∈ st.node_stack, (dictGet st.node_map T).isSome) →
    ProdOKb (st.node_map.map Prod.fst) (seqOfF ts) = true →
    ∃ st', visitForest ts st = Except.ok st' ∧
      st'.node_stack = st.node_stack ∧
      st'.node_map.map Prod.fst = st.node_map.map Prod.fst ++ labelsOfF ts ∧
      st'.nodes = st.nodes ++
        (if st.node_stack = [] then ts.map TransformTree.full_label else []) ∧
      ∀ K, dictGet st'.node_map K = expectedUpdate st ts K := by
  induction n with
  | zero =>
    intro ts st hsize hfresh hne hnd hstk hprod
    cases ts with
    | nil =>
      exact ⟨st, rfl, rfl, by simp [labelsOfF_nil], by simp,
        fun K => (expectedUpdate_nil st K).symm⟩
    | cons t ts' =>
      exfalso
      have h1 := treeSize_pos t
      rw [forestSize_cons] at hsize
      omega
  | succ n ih =>
    intro ts st hsize hfresh hne hnd hstk hprod
    cases ts with
    | nil =>
      exact ⟨st, rfl, rfl, by simp [labelsOfF_nil], by simp,
        fun K => (expectedUpdate_nil st K).symm⟩
    | cons t ts' =>
      rw [labelsOfF_cons] at hfresh hne hnd
      rw [forestSize_cons] at hsize
      have hfresh_t : ∀ L ∈ labelsOfF [t], dictGet st.node_map L = none :=
        fun L hL => hfresh L (List.mem_append_left _ hL)
      have hfresh_ts : ∀ L ∈ labelsOfF ts', dictGet st.node_map L = none :=
        fun L hL => hfresh L (List.mem_append_right _ hL)
      have hne_t : "" ∉ labelsOfF [t] := fun h => hne (List.mem_append_left _ h)
      have hne_ts : "" ∉ labelsOfF ts' := fun h => hne (List.mem_append_right _ h)
      have hnd_t : (labelsOfF [t]).Nodup := hnd.of_append_left
      have hnd_ts : (labelsOfF ts').Nodup := hnd.of_append_right
      have hdisj : (labelsOfF [t]).Disjoint (labelsOfF ts') :=
        List.disjoint_of_nodup_append hnd
      rw [seqOfF_cons, ProdOKb_append, Bool.and_eq_true] at hprod
      obtain ⟨hprod_t, hprod_ts⟩ := hprod
      rw [seqOfF_fst] at hprod_ts
      obtain ⟨st1, hrun1, hstack1, hkeys1, hnodes1, hpt1⟩ :
          ∃ st1, visitTree t st = Except.ok st1 ∧
            st1.node_stack = st.node_stack ∧
            st1.node_map.map Prod.fst =
              st.node_map.map Prod.fst ++ labelsOfF [t] ∧
            st1.nodes = st.nodes ++
              (if st.node_stack = [] then [t.full_label] else []) ∧
            ∀ K, dictGet st1.node_map K = expectedUpdate st [t] K := by
        cases t with
        | leaf l ins =>
          have hlfresh : dictGet st.node_map l = none :=
            hfresh_t l (by rw [labelsOfF_leaf]; exact List.mem_singleton.mpr rfl)
          rw [seqOfF_leaf] at hprod_t
          obtain ⟨hins_known, _⟩ := ProdOKb_head _ _ _ _ hprod_t
          have hins : ∀ L ∈ ins, (dictGet st.node_map L).isSome := by
            intro L hL
            rw [dictGet_isSome_iff_mem_keys]
            exact hins_known L hL
          have hcount : ins.count l = 0 := by
            rw [List.count_eq_zero]
            intro hmem
            have hk := hins_known l hmem
            rw [← dictGet_isSome_iff_mem_keys, hlfresh] at hk
            cases hk
          obtain ⟨st1, hrun, hstk1, hkeys1, hnodes1, hpt⟩ :=
            add_node_spec l ins st hlfresh hins hstk
          refine ⟨st1, hrun, hstk1, ?_, ?_, ?_⟩
          · rw [hkeys1, labelsOfF_leaf]
          · rw [hnodes1, full_label_leaf]
          · intro K
            rw [hpt K]
            by_cases hKl : K = l
            · subst hKl
              rw [if_pos rfl,
                expectedUpdate_none st [.leaf K ins] K hlfresh,
                expectedEntry_some [.leaf K ins] K (.leaf K ins)
                  (by rw [preorderF_single, preorder_leaf, findTree_cons,
                    full_label_leaf, if_pos rfl]),
                hcount]
              simp [children_leaf, seqOfF_leaf, seqAfter_cons_self,
                consumerEdges_nil]
            · rw [if_neg hKl]
              cases hgK : dictGet st.node_map K with
              | none =>
                rw [expectedUpdate_none st _ K hgK,
                  expectedEntry_none _ K
                    (by
                      rw [preorderF_single, preorder_leaf, findTree_cons,
                        full_label_leaf,
                        if_neg (fun he => hKl he.symm), findTree_nil])]
                rfl
              | some g =>
                rw [expectedUpdate_some st _ K g hgK, seqOfF_leaf,
                  consumerEdges_single]
                simp [full_label_leaf]
        | composite l ins cs =>
          have hlblmem : l ∈ labelsOfF [.composite l ins cs] := by
            rw [labelsOfF_composite]
            exact List.mem_cons_self _ _
          have hlfresh : dictGet st.node_map l = none := hfresh_t l hlblmem
          have hlne : l ≠ "" := fun he => hne_t (he ▸ hlblmem)
          rw [seqOfF_composite] at hprod_t
          obtain ⟨hins_known, hprod_cs⟩ := ProdOKb_head _ _ _ _ hprod_t
          have hins : ∀ L ∈ ins, (dictGet st.node_map L).isSome := by
            intro L hL
            rw [dictGet_isSome_iff_mem_keys]
            exact hins_known L hL
          have hcount : ins.count l = 0 := by
            rw [List.count_eq_zero]
            intro hmem
            have hk := hins_known l hmem
            rw [← dictGet_isSome_iff_mem_keys, hlfresh] at hk
            cases hk
          obtain ⟨stA, hrunA, hstackA, hkeysA, hnodesA, hptA⟩ :=
            add_node_spec l ins st hlfresh hins hstk
          have henter : enter_composite_transform l ins st =
              Except.ok ⟨stA.nodes, stA.node_stack ++ [l], stA.node_map⟩ := by
            rw [enter_composite_transform,
              if_neg (length_ne_zero_of_ne_empty l hlne)]
            simp only [hrunA]
          have hlnotcs : l ∉ labelsOfF cs := by
            rw [labelsOfF_composite] at hnd_t
            exact (List.nodup_cons.mp hnd_t).1
          have hfreshP : ∀ L ∈ labelsOfF cs,
              dictGet stA.node_map L = none := by
            intro L hL
            have hLne : ¬L = l := fun he => hlnotcs (he ▸ hL)
            rw [hptA L, if_neg hLne,
              hfresh_t L (by
                rw [labelsOfF_composite]
                exact List.mem_cons_of_mem _ hL)]
            rfl
          have hneP : "" ∉ labelsOfF cs := fun h =>
            hne_t (by
              rw [labelsOfF_composite]
              exact List.mem_cons_of_mem _ h)
          have hndP : (labelsOfF cs).Nodup := by
            rw [labelsOfF_composite] at hnd_t
            exact (List.nodup_cons.mp hnd_t).2
          have hstkP : ∀ T ∈ stA.node_stack ++ [l],
              (dictGet stA.node_map T).isSome := by
            intro T hT
            rcases List.mem_append.mp hT with hT | hT
            · rw [hstackA] at hT
              obtain ⟨g, hg⟩ := Option.isSome_iff_exists.mp (hstk T hT)
              have hTl : ¬T = l := by
                intro he
                rw [he, hlfresh] at hg
                cases hg
              rw [hptA T, if_neg hTl, hg]
              rfl
            · rw [List.mem_singleton.mp hT, hptA l, if_pos rfl]
              rfl
          have hprodP : ProdOKb ((stA.node_map.map Prod.fst)) (seqOfF cs) = true := by
            rw [hkeysA]
            exact hprod_cs
          have hsizeP : forestSize cs ≤ n := by
            rw [treeSize_composite] at hsize
            omega
          obtain ⟨stB, hrunB, hstackB, hkeysB, hnodesB, hptB⟩ :=
            ih cs ⟨stA.nodes, stA.node_stack ++ [l], stA.node_map⟩ hsizeP
              hfreshP hneP hndP hstkP hprodP
          have hstackB' : stB.node_stack = st.node_stack ++ [l] := by
            rw [hstackB]
            show stA.node_stack ++ [l] = st.node_stack ++ [l]
            rw [hstackA]
          have hdrop : stB.node_stack.dropLast = st.node_stack := by
            rw [hstackB']
            exact List.dropLast_concat
          have hleave : leave_composite_transform l stB =
              Except.ok ⟨stB.nodes, st.node_stack, stB.node_map⟩ := by
            rw [leave_composite_transform,
              if_neg (length_ne_zero_of_ne_empty l hlne), hdrop]
          refine ⟨⟨stB.nodes, st.node_stack, stB.node_map⟩, ?_, rfl, ?_, ?_, ?_⟩
          · show visitTree (.composite l ins cs) st = _
            simp only [visitTree, henter, hrunB, hleave]
          · show stB.node_map.map Prod.fst = _
            rw [hkeysB]
            show (stA.node_map.map Prod.fst) ++ labelsOfF cs = _
            rw [hkeysA, labelsOfF_composite, List.append_assoc,
              List.singleton_append]
          · show stB.nodes = _
            rw [hnodesB]
            show stA.nodes ++
              (if stA.node_stack ++ [l] = [] then cs.map TransformTree.full_label
               else []) = _
            rw [if_neg (by simp), List.append_nil, hnodesA, full_label_composite]
          · intro K
            show dictGet stB.node_map K = _
            rw [hptB K]
            exact expectedUpdate_push st stA l ins cs hlfresh hcount hptA K
      have hsize_ts : forestSize ts' ≤ n := by
        have := treeSize_pos t
        omega
      have hfresh1 : ∀ L ∈ labelsOfF ts', dictGet st1.node_map L = none := by
        intro L hL
        rw [hpt1 L, expectedUpdate_none st [t] L (hfresh_ts L hL),
          expectedEntry_none [t] L
            (by
              rw [preorderF_single]
              exact findTree_eq_none L (preorder t)
                (fun hm => hdisj (by rw [labelsOfF, preorderF_single]; exact hm) hL))]
      have hstk1 : ∀ T ∈ st1.node_stack, (dictGet st1.node_map T).isSome := by
        intro T hT
        rw [hstack1] at hT
        obtain ⟨g, hg⟩ := Option.isSome_iff_exists.mp (hstk T hT)
        rw [hpt1 T, expectedUpdate_some st [t] T g hg]
        rfl
      have hprod1 : ProdOKb (st1.node_map.map Prod.fst) (seqOfF ts') = true := by
        rw [hkeys1]
        exact hprod_ts
      obtain ⟨st2, hrun2, hstack2, hkeys2, hnodes2, hpt2⟩ :=
        ih ts' st1 hsize_ts hfresh1 hne_ts hnd_ts hstk1 hprod1
      refine ⟨st2, ?_, ?_, ?_, ?_, ?_⟩
      · show visitForest (t :: ts') st = Except.ok st2
        simp only [visitForest, hrun1]
        exact hrun2
      · rw [hstack2, hstack1]
      · rw [hkeys2, hkeys1, List.append_assoc, ← labelsOfF_cons t ts']
      · rw [hnodes2, hnodes1, hstack1]
        by_cases hcase : st.node_stack = []
        · simp [hcase]
        · simp [hcase]
      · intro K
        rw [hpt2 K]
        exact expectedUpdate_sibling st st1 t ts' hstack1 hstk hpt1 K

/-! ### Materialization of the store into the nested structure -/

mutual
/-- The nested graph node the builder's store describes for one transform,
given the final edge list of every label. -/
def expectedGraph (E : String → List String) : TransformTree → GraphNode
  | .leaf l _ => .mk l (displayName l) [] (E l)
  | .composite l _ cs => .mk l (displayName l) (expectedGraphF E cs) (E l)
def expectedGraphF (E : String → List String) : List TransformTree → List GraphNode
  | [] => []
  | t :: ts => expectedGraph E t :: expectedGraphF E ts
end

mutual
def allIds : GraphNode → List String
  | .mk i _ kids _ => i :: allIdsF kids
def allIdsF : List GraphNode → List String
  | [] => []
  | g :: gs => allIds g ++ allIdsF gs
end

mutual
def allNodes : GraphNode → List GraphNode
  | .mk i nm kids es => .mk i nm kids es :: allNodesF kids
def allNodesF : List GraphNode → List GraphNode
  | [] => []
  | g :: gs => allNodes g ++ allNodesF gs
end

theorem preorder_length_pos (t : TransformTree) : 1 ≤ (preorder t).length := by
  cases t with
  | leaf l i => rw [preorder_leaf]; simp
  | composite l i cs => rw [preorder_composite]; simp

theorem preorder_length_le (c : TransformTree) (cs : List TransformTree)
    (h : c ∈ cs) : (preorder c).length ≤ (preorderF cs).length := by
  induction cs with
  | nil => cases h
  | cons t rest ih =>
    rw [preorderF_cons, List.length_append]
    rcases List.mem_cons.mp h with rfl | h'
    · omega
    · have := ih h'
      omega

theorem mem_preorderF_of_mem (v c : TransformTree) (cs : List TransformTree)
    (hv : v ∈ preorder c) (hc : c ∈ cs) : v ∈ preorderF cs := by
  induction cs with
  | nil => cases hc
  | cons t rest ih =>
    rw [preorderF_cons]
    rcases List.mem_cons.mp hc with rfl | h'
    · exact List.mem_append_left _ hv
    · exact List.mem_append_right _ (ih h')

theorem mapM_materialize_expected (m : NodeMap) (E : String → List String)
    (n : Nat) :
    ∀ (ts : List TransformTree), forestSize ts ≤ n →
    (∀ v ∈ preorderF ts, dictGet m v.full_label =
      some ⟨v.full_label, displayName v.full_label,
        v.children.map TransformTree.full_label, E v.full_label⟩) →
    ∀ fuel, (∀ t ∈ ts, (preorder t).length < fuel) →
    (ts.map TransformTree.full_label).mapM (materialize m fuel) =
      some (expectedGraphF E ts) := by
  induction n with
  | zero =>
    intro ts hsize hentry fuel hfuel
    cases ts with
    | nil => rfl
    | cons t ts' =>
      exfalso
      have h1 := treeSize_pos t
      rw [forestSize_cons] at hsize
      omega
  | succ n ih =>
    intro ts hsize hentry fuel hfuel
    cases ts with
    | nil => rfl
    | cons t ts' =>
      rw [forestSize_cons] at hsize
      have hlen := hfuel t (List.mem_cons_self t ts')
      obtain ⟨f, rfl⟩ : ∃ f, fuel = f + 1 := by
        cases fuel with
        | zero =>
          exfalso
          have := preorder_length_pos t
          omega
        | succ f => exact ⟨f, rfl⟩
      have hhead : materialize m (f + 1) t.full_label =
          some (expectedGraph E t) := by
        cases t with
        | leaf l i =>
          have he := hentry (.leaf l i)
            (by rw [preorderF_cons, preorder_leaf]; exact List.mem_append_left _ (List.mem_singleton.mpr rfl))
          rw [full_label_leaf, children_leaf] at he
          simp only [materialize, he, full_label_leaf]
          rfl
        | composite l i cs =>
          have he := hentry (.composite l i cs)
            (by
              rw [preorderF_cons, preorder_composite]
              exact List.mem_append_left _ (List.mem_cons_self _ _))
          rw [full_label_composite, children_composite] at he
          have hcsize : forestSize cs ≤ n := by
            rw [treeSize_composite] at hsize
            omega
          have hcentry : ∀ v ∈ preorderF cs, dictGet m v.full_label =
              some ⟨v.full_label, displayName v.full_label,
                v.children.map TransformTree.full_label, E v.full_label⟩ := by
            intro v hv
            exact hentry v (by
              rw [preorderF_cons, preorder_composite]
              exact List.mem_append_left _ (List.mem_cons_of_mem _ hv))
          have hcfuel : ∀ c ∈ cs, (preorder c).length < f := by
            intro c hc
            have h1 := preorder_length_le c cs hc
            rw [preorder_composite] at hlen
            simp only [List.length_cons] at hlen
            omega
          have hkids := ih cs hcsize hcentry f hcfuel
          simp only [materialize, full_label_composite, he, hkids]
          rfl
      have htfuel : ∀ u ∈ ts', (preorder u).length < f + 1 :=
        fun u hu => hfuel u (List.mem_cons_of_mem _ hu)
      have htsize : forestSize ts' ≤ n := by
        have := treeSize_pos t
        omega
      have htentry : ∀ v ∈ preorderF ts', dictGet m v.full_label =
          some ⟨v.full_label, displayName v.full_label,
            v.children.map TransformTree.full_label, E v.full_label⟩ := by
        intro v hv
        exact hentry v (by rw [preorderF_cons]; exact List.mem_append_right _ hv)
      have hrest := ih ts' htsize htentry (f + 1) htfuel
      rw [List.map_cons, List.mapM_cons, hhead, hrest]
      rfl

theorem allIdsF_expectedGraphF (E : String → List String) (n : Nat) :
    ∀ ts : List TransformTree, forestSize ts ≤ n →
    allIdsF (expectedGraphF E ts) = labelsOfF ts := by
  induction n with
  | zero =>
    intro ts hsize
    cases ts with
    | nil => rfl
    | cons t ts' =>
      exfalso
      have h1 := treeSize_pos t
      rw [forestSize_cons] at hsize
      omega
  | succ n ih =>
    intro ts hsize
    cases ts with
    | nil => rfl
    | cons t ts' =>
      rw [forestSize_cons] at hsize
      have htsize : forestSize ts' ≤ n := by
        have := treeSize_pos t
        omega
      show allIds (expectedGraph E t) ++ allIdsF (expectedGraphF E ts') = _
      rw [ih ts' htsize, labelsOfF_cons]
      congr 1
      cases t with
      | leaf l i =>
        show l :: allIdsF [] = labelsOfF [.leaf l i]
        rw [labelsOfF_leaf]
        rfl
      | composite l i cs =>
        show l :: allIdsF (expectedGraphF E cs) = labelsOfF [.composite l i cs]
        have hcsize : forestSize cs ≤ n := by
          rw [treeSize_composite] at hsize
          omega
        rw [ih cs hcsize, labelsOfF_composite]

theorem mem_allNodesF_expectedGraphF (E : String → List String) (n : Nat) :
    ∀ ts : List TransformTree, forestSize ts ≤ n →
    ∀ g ∈ allNodesF (expectedGraphF E ts),
      ∃ u ∈ preorderF ts, g = expectedGraph E u := by
  induction n with
  | zero =>
    intro ts hsize g hg
    cases ts with
    | nil => cases hg
    | cons t ts' =>
      exfalso
      have h1 := treeSize_pos t
      rw [forestSize_cons] at hsize
      omega
  | succ n ih =>
    intro ts hsize g hg
    cases ts with
    | nil => cases hg
    | cons t ts' =>
      rw [forestSize_cons] at hsize
      have htsize : forestSize ts' ≤ n := by
        have := treeSize_pos t
        omega
      have hg2 : g ∈ allNodes (expectedGraph E t) ++ allNodesF (expectedGraphF E ts') := hg
      rw [preorderF_cons]
      rcases List.mem_append.mp hg2 with hga | hgb
      · cases t with
        | leaf l i =>
          have : g ∈ [GraphNode.mk l (displayName l) [] (E l)] := hga
          rw [List.mem_singleton.mp this]
          exact ⟨.leaf l i, List.mem_append_left _
            (by rw [preorder_leaf]; exact List.mem_singleton.mpr rfl), rfl⟩
        | composite l i cs =>
          have hcsize : forestSize cs ≤ n := by
            rw [treeSize_composite] at hsize
            omega
          have : g ∈ GraphNode.mk l (displayName l) (expectedGraphF E cs) (E l) ::
              allNodesF (expectedGraphF E cs) := hga
          rcases List.mem_cons.mp this with rfl | hgc
          · exact ⟨.composite l i cs, List.mem_append_left _
              (by rw [preorder_composite]; exact List.mem_cons_self _ _), rfl⟩
          · obtain ⟨u, hu, hgu⟩ := ih cs hcsize g hgc
            exact ⟨u, List.mem_append_left _
              (by rw [preorder_composite]; exact List.mem_cons_of_mem _ hu), hgu⟩
      · obtain ⟨u, hu, hgu⟩ := ih ts' htsize g hgb
        exact ⟨u, List.mem_append_right _ hu, hgu⟩

theorem findTree_of_mem_nodup (l : List TransformTree) (v : TransformTree)
    (hnd : (l.map TransformTree.full_label).Nodup) (hv : v ∈ l) :
    findTree v.full_label l = some v := by
  induction l with
  | nil => cases hv
  | cons w rest ih =>
    rw [findTree_cons]
    simp only [List.map_cons, List.nodup_cons] at hnd
    rcases List.mem_cons.mp hv with rfl | hv'
    · rw [if_pos rfl]
    · by_cases hw : w.full_label = v.full_label
      · exfalso
        exact hnd.1 (hw ▸ List.mem_map.mpr ⟨v, hv', rfl⟩)
      · rw [if_neg hw]
        exact ih hnd.2 hv'

/-- Running the builder over a whole pipeline (root composite with empty
label): the root is suppressed, the traversal succeeds, and the final store
holds exactly the non-root transforms. -/
theorem builder_run (rootInputs : List String) (cs : List TransformTree)
    (hnd : (labelsOfF cs).Nodup) (hne : "" ∉ labelsOfF cs)
    (hprod : ProdOKb [] (seqOfF cs) = true) :
    ∃ st', visitTree (.composite "" rootInputs cs) initState = Except.ok st' ∧
      st'.node_stack = [] ∧
      st'.node_map.map Prod.fst = labelsOfF cs ∧
      st'.nodes = cs.map TransformTree.full_label ∧
      ∀ K, dictGet st'.node_map K = expectedEntry cs K := by
  have hf : ∀ L ∈ labelsOfF cs, dictGet initState.node_map L = none :=
    fun L _ => rfl
  have hstk : ∀ T ∈ initState.node_stack,
      (dictGet initState.node_map T).isSome := by
    intro T hT
    cases hT
  have hpr : ProdOKb (initState.node_map.map Prod.fst) (seqOfF cs) = true :=
    hprod
  obtain ⟨st', hrunF, hstack, hkeys, hnodes, hpt⟩ :=
    visitForest_spec (forestSize cs) cs initState (Nat.le_refl _) hf hne hnd
      hstk hpr
  have henter : enter_composite_transform "" rootInputs initState =
      Except.ok initState := rfl
  have hleave : leave_composite_transform "" st' = Except.ok st' := rfl
  refine ⟨st', ?_, ?_, ?_, ?_, ?_⟩
  · show visitTree (.composite "" rootInputs cs) initState = Except.ok st'
    simp only [visitTree, henter, hrunF, hleave]
  · rw [hstack]
    rfl
  · rw [hkeys]
    rfl
  · rw [hnodes]
    show ([] : List String) ++ (if ([] : List String) = [] then _ else []) = _
    simp
  · intro K
    rw [hpt K, expectedUpdate_none initState cs K rfl]

/-- Claim C1: for a pipeline with N transform applications (composite and
leaf, the empty-labeled root excluded), the builder's returned nested
structure contains exactly N GraphNodes across all nesting levels, their
identifiers are the transforms' full labels (hence unique), and the root
composite is not materialized as a GraphNode. -/
theorem C1_graph_node_count (rootInputs : List String)
    (cs : List TransformTree)
    (hnd : (labelsOfF cs).Nodup) (hne : "" ∉ labelsOfF cs)
    (hprod : ProdOKb [] (seqOfF cs) = true) :
    ∃ gs : List GraphNode,
      DataflowGraphBuilder.visit (.composite "" rootInputs cs) =
        Except.ok (some gs) ∧
      allIdsF gs = labelsOfF cs ∧
      (allIdsF gs).length = (preorderF cs).length ∧
      (allIdsF gs).Nodup ∧ "" ∉ allIdsF gs := by
  obtain ⟨st', hrun, hstack, hkeys, hnodes, hpt⟩ :=
    builder_run rootInputs cs hnd hne hprod
  have hentry : ∀ v ∈ preorderF cs, dictGet st'.node_map v.full_label =
      some ⟨v.full_label, displayName v.full_label,
        v.children.map TransformTree.full_label,
        (fun L => consumerEdges L (seqAfter L (seqOfF cs))) v.full_label⟩ := by
    intro v hv
    rw [hpt v.full_label,
      expectedEntry_some cs v.full_label v (findTree_of_mem_nodup _ v hnd hv)]
  have hfuel : ∀ t ∈ cs, (preorder t).length < st'.node_map.length + 1 := by
    intro t ht
    have h1 := preorder_length_le t cs ht
    have h2 : st'.node_map.length = (preorderF cs).length := by
      have := congrArg List.length hkeys
      rw [List.length_map] at this
      rw [this, labelsOfF, List.length_map]
    omega
  have hmap := mapM_materialize_expected st'.node_map
    (fun L => consumerEdges L (seqAfter L (seqOfF cs))) (forestSize cs) cs
    (Nat.le_refl _) hentry (st'.node_map.length + 1) hfuel
  refine ⟨expectedGraphF (fun L => consumerEdges L (seqAfter L (seqOfF cs))) cs,
    ?_, ?_, ?_, ?_, ?_⟩
  · simp only [DataflowGraphBuilder.visit, hrun]
    rw [hnodes, hmap]
  · exact allIdsF_expectedGraphF _ (forestSize cs) cs (Nat.le_refl _)
  · rw [allIdsF_expectedGraphF _ (forestSize cs) cs (Nat.le_refl _), labelsOfF,
      List.length_map]
  · rw [allIdsF_expectedGraphF _ (forestSize cs) cs (Nat.le_refl _)]
    exact hnd
  · rw [allIdsF_expectedGraphF _ (forestSize cs) cs (Nat.le_refl _)]
    exact hne

/-- The two-leaf composite pipeline used as a concrete example: composite "A"
holding "A/x" and "A/y", with "A/y" consuming "A/x"'s output. -/
def exampleForest : List TransformTree :=
  [.composite "A" [] [.leaf "A/x" [], .leaf "A/y" ["A/x"]]]

/-- Witness for C1 at the concrete example pipeline. -/
theorem C1_graph_node_count_witness :
    ((labelsOfF exampleForest).Nodup ∧ "" ∉ labelsOfF exampleForest ∧
      ProdOKb [] (seqOfF exampleForest) = true) ∧
    ∃ gs : List GraphNode,
      DataflowGraphBuilder.visit (.composite "" [] exampleForest) =
        Except.ok (some gs) ∧
      allIdsF gs = labelsOfF exampleForest ∧
      (allIdsF gs).length = (preorderF exampleForest).length ∧
      (allIdsF gs).Nodup ∧ "" ∉ allIdsF gs :=
  ⟨⟨by decide, by decide, by decide⟩,
    C1_graph_node_count [] exampleForest (by decide) (by decide) (by decide)⟩

/-- Under producer-before-consumer, a call whose inputs name a label not yet
known sits strictly after the call that created that label. -/
theorem ProdOKb_seqAfter (s : List (String × List String)) :
    ∀ known : List String, ProdOKb known s = true →
    (s.map Prod.fst).Nodup →
    (∀ x ∈ s.map Prod.fst, x ∉ known) →
    ∀ q ∈ s, ∀ L ∈ q.2, L ∉ known → q ∈ seqAfter L s := by
  induction s with
  | nil =>
    intro known _ _ _ q hq
    cases hq
  | cons p rest ih =>
    obtain ⟨c, ins⟩ := p
    intro known hprod hnd hdisj q hq L hL hLk
    obtain ⟨hhead, htail⟩ := ProdOKb_head _ _ _ _ hprod
    simp only [List.map_cons, List.nodup_cons] at hnd
    rcases List.mem_cons.mp hq with rfl | hq'
    · exact absurd (hhead L hL) hLk
    · by_cases hcL : c = L
      · subst hcL
        rw [seqAfter, if_pos rfl]
        exact hq'
      · rw [seqAfter_cons_ne L c ins rest hcL]
        refine ih (known ++ [c]) htail hnd.2 ?_ q hq' L hL ?_
        · intro x hx
          rw [List.mem_append, List.mem_singleton]
          push_neg
          refine ⟨hdisj x (List.mem_cons_of_mem _ hx), ?_⟩
          intro he
          exact hnd.1 (he ▸ hx)
        · rw [List.mem_append, List.mem_singleton]
          push_neg
          exact ⟨hLk, fun he => hcL he.symm⟩

theorem mem_seqOfF (cs : List TransformTree) (u : TransformTree)
    (hu : u ∈ preorderF cs) : (u.full_label, u.inputs) ∈ seqOfF cs := by
  rw [seqOfF]
  exact List.mem_map.mpr ⟨u, hu, rfl⟩

/-- Claim C2: after the traversal, producer `P`'s edge list contains consumer
`C`'s identifier iff some input value of `C`'s transform was produced by
`P`'s transform, and the edge set holds no pairs other than these. -/
theorem C2_edge_iff (rootInputs : List String) (cs : List TransformTree)
    (hnd : (labelsOfF cs).Nodup) (hne : "" ∉ labelsOfF cs)
    (hprod : ProdOKb [] (seqOfF cs) = true) :
    ∃ st', visitTree (.composite "" rootInputs cs) initState = Except.ok st' ∧
      (∀ tP ∈ preorderF cs, ∀ tC ∈ preorderF cs, ∀ gP,
        dictGet st'.node_map tP.full_label = some gP →
        (tC.full_label ∈ gP.edges ↔ tP.full_label ∈ tC.inputs)) ∧
      (∀ tP ∈ preorderF cs, ∀ gP,
        dictGet st'.node_map tP.full_label = some gP →
        ∀ e ∈ gP.edges, ∃ tC ∈ preorderF cs,
          tC.full_label = e ∧ tP.full_label ∈ tC.inputs) := by
  obtain ⟨st', hrun, hstack, hkeys, hnodes, hpt⟩ :=
    builder_run rootInputs cs hnd hne hprod
  have hndseq : ((seqOfF cs).map Prod.fst).Nodup := by
    rw [seqOfF_fst]
    exact hnd
  have hgP_edges : ∀ tP ∈ preorderF cs, ∀ gP,
      dictGet st'.node_map tP.full_label = some gP →
      gP.edges = consumerEdges tP.full_label
        (seqAfter tP.full_label (seqOfF cs)) := by
    intro tP hP gP hg
    rw [hpt tP.full_label,
      expectedEntry_some cs tP.full_label tP
        (findTree_of_mem_nodup _ tP hnd hP)] at hg
    cases hg
    rfl
  have hmem_to_input : ∀ tP ∈ preorderF cs, ∀ gP,
      dictGet st'.node_map tP.full_label = some gP →
      ∀ e ∈ gP.edges, ∃ tC ∈ preorderF cs,
        tC.full_label = e ∧ tP.full_label ∈ tC.inputs := by
    intro tP hP gP hg e he
    rw [hgP_edges tP hP gP hg] at he
    obtain ⟨q, hq, hqe, hqin⟩ := (mem_consumerEdges e tP.full_label _).mp he
    have hqmem : q ∈ seqOfF cs := mem_of_mem_seqAfter _ q _ hq
    obtain ⟨u, hu, huq⟩ := List.mem_map.mp hqmem
    refine ⟨u, hu, ?_, ?_⟩
    · rw [← hqe, ← huq]
    · rw [← huq] at hqin
      exact hqin
  refine ⟨st', hrun, ?_, hmem_to_input⟩
  intro tP hP tC hC gP hg
  constructor
  · intro he
    obtain ⟨u, hu, hue, huin⟩ := hmem_to_input tP hP gP hg tC.full_label he
    have hqeq : u = tC := by
      have h1 : u ∈ preorderF cs := hu
      have := List.inj_on_of_nodup_map (f := TransformTree.full_label)
        (l := preorderF cs) hnd h1 hC hue
      exact this
    rw [← hqeq]
    exact huin
  · intro hin
    rw [hgP_edges tP hP gP hg]
    apply (mem_consumerEdges tC.full_label tP.full_label _).mpr
    refine ⟨(tC.full_label, tC.inputs), ?_, rfl, hin⟩
    exact ProdOKb_seqAfter (seqOfF cs) [] hprod hndseq
      (by intro x _ hx; cases hx)
      (tC.full_label, tC.inputs) (mem_seqOfF cs tC hC) tP.full_label hin
      (by intro hx; cases hx)

/-- Witness for C2 at the concrete example pipeline. -/
theorem C2_edge_iff_witness :
    ((labelsOfF exampleForest).Nodup ∧ "" ∉ labelsOfF exampleForest ∧
      ProdOKb [] (seqOfF exampleForest) = true) ∧
    ∃ st', visitTree (.composite "" ["ignored"] exampleForest) initState =
        Except.ok st' ∧
      (∀ tP ∈ preorderF exampleForest, ∀ tC ∈ preorderF exampleForest, ∀ gP,
        dictGet st'.node_map tP.full_label = some gP →
        (tC.full_label ∈ gP.edges ↔ tP.full_label ∈ tC.inputs)) ∧
      (∀ tP ∈ preorderF exampleForest, ∀ gP,
        dictGet st'.node_map tP.full_label = some gP →
        ∀ e ∈ gP.edges, ∃ tC ∈ preorderF exampleForest,
          tC.full_label = e ∧ tP.full_label ∈ tC.inputs) :=
  ⟨⟨by decide, by decide, by decide⟩,
    C2_edge_iff ["ignored"] exampleForest (by decide) (by decide) (by decide)⟩

/-! ### Display names (claim C6) -/

/-- The last path segment of a label: everything after the final `/`. -/
def lastSegmentAfterSlash (label : String) : String :=
  String.mk ((label.toList.reverse.takeWhile fun ch => ch != '/').reverse)

/-- The display name exactly as the specification sentence states it: the
last path segment after the final separator, or the full label when the label
contains no separator. -/
def specDisplayName (label : String) : String :=
  if label.toList.contains '/' then lastSegmentAfterSlash label else label

/-- The amended description: the code strips the last path segment only when
the final `/` sits at a strictly positive index; a label whose only `/` is
its first character keeps the full label as its display name. -/
def amendedDisplayName (label : String) : String :=
  if (label.toList.drop 1).contains '/' then lastSegmentAfterSlash label
  else label

theorem contains_iff_mem {α : Type} [BEq α] [LawfulBEq α] (l : List α) (a : α) :
    l.contains a = true ↔ a ∈ l :=
  ⟨fun h => List.mem_of_elem_eq_true h, fun h => List.elem_eq_true_of_mem h⟩

theorem takeWhile_bne_append_of_mem {α : Type} [BEq α] [LawfulBEq α] (c : α)
    (xs ys : List α) (h : c ∈ xs) :
    (xs ++ ys).takeWhile (fun x => x != c) =
      xs.takeWhile (fun x => x != c) := by
  induction xs with
  | nil => cases h
  | cons x xs' ih =>
    by_cases hx : x = c
    · subst hx
      simp [List.takeWhile_cons]
    · have hc : c ∈ xs' := by
        rcases List.mem_cons.mp h with he | hm
        · exact absurd he.symm hx
        · exact hm
      simp [List.takeWhile_cons, bne_iff_ne, hx, ih hc]

theorem takeWhile_bne_append_not_mem {α : Type} [BEq α] [LawfulBEq α] (c : α)
    (xs ys : List α) (h : c ∉ xs) :
    (xs ++ c :: ys).takeWhile (fun x => x != c) = xs := by
  induction xs with
  | nil => simp [List.takeWhile_cons]
  | cons x xs' ih =>
    have hx : x ≠ c := fun he => h (he ▸ List.mem_cons_self x xs')
    have h' : c ∉ xs' := fun hm => h (List.mem_cons_of_mem _ hm)
    simp [List.takeWhile_cons, bne_iff_ne, hx, ih h']

theorem pyRfind_eq_none_iff (c : Char) (cs : List Char) :
    pyRfind c cs = none ↔ c ∉ cs := by
  induction cs with
  | nil => simp [pyRfind]
  | cons a rest ih =>
    rw [pyRfind]
    cases hr : pyRfind c rest with
    | some i =>
      have hmem : c ∈ rest := by
        by_contra hn
        rw [ih.mpr hn] at hr
        cases hr
      simp [hmem]
    | none =>
      have hnm : c ∉ rest := ih.mp hr
      by_cases ha : a = c
      · simp [ha]
      · have hca : ¬c = a := fun he => ha he.symm
        simp [ha, hnm, hca]

theorem pyRfind_drop (c : Char) (cs : List Char) :
    ∀ i : Nat, pyRfind c cs = some i →
    cs.drop (i + 1) = (cs.reverse.takeWhile fun x => x != c).reverse := by
  induction cs with
  | nil =>
    intro i h
    cases h
  | cons a rest ih =>
    intro i h
    rw [pyRfind] at h
    cases hr : pyRfind c rest with
    | some j =>
      rw [hr] at h
      obtain rfl : j + 1 = i := by
        cases h
        rfl
      show (a :: rest).drop (j + 1 + 1) = _
      rw [List.drop_succ_cons, ih j hr, List.reverse_cons]
      congr 1
      have hmem : c ∈ rest.reverse := by
        rw [List.mem_reverse]
        by_contra hn
        rw [(pyRfind_eq_none_iff c rest).mpr hn] at hr
        cases hr
      rw [takeWhile_bne_append_of_mem c _ [a] hmem]
    | none =>
      rw [hr] at h
      by_cases ha : a = c
      · rw [if_pos ha] at h
        obtain rfl : (0 : Nat) = i := by
          cases h
          rfl
        subst ha
        show rest = _
        rw [List.reverse_cons]
        have hnm : a ∉ rest.reverse := by
          rw [List.mem_reverse]
          exact (pyRfind_eq_none_iff a rest).mp hr
        rw [show rest.reverse ++ [a] = rest.reverse ++ a :: [] from rfl,
          takeWhile_bne_append_not_mem a rest.reverse [] hnm,
          List.reverse_reverse]
      · rw [if_neg ha] at h
        cases h

theorem pyRfind_pos_iff (c : Char) (cs : List Char) :
    (∃ j, pyRfind c cs = some (j + 1)) ↔ c ∈ cs.drop 1 := by
  cases cs with
  | nil => simp [pyRfind]
  | cons a rest =>
    show (∃ j, pyRfind c (a :: rest) = some (j + 1)) ↔ c ∈ rest
    rw [pyRfind]
    cases hr : pyRfind c rest with
    | some i =>
      have hmem : c ∈ rest := by
        by_contra hn
        rw [(pyRfind_eq_none_iff c rest).mpr hn] at hr
        cases hr
      simp [hmem]
    | none =>
      have hnm : c ∉ rest := (pyRfind_eq_none_iff c rest).mp hr
      by_cases ha : a = c
      · rw [if_pos ha]
        simp [hnm]
      · rw [if_neg ha]
        simp [hnm]

theorem displayName_eq_amended (label : String) :
    displayName label = amendedDisplayName label := by
  rw [displayName, amendedDisplayName]
  cases h : pyRfind '/' label.toList with
  | none =>
    have hnm : '/' ∉ label.toList := (pyRfind_eq_none_iff _ _).mp h
    rw [if_neg]
    intro hc
    exact hnm (List.mem_of_mem_drop ((contains_iff_mem _ _).mp hc))
  | some i =>
    show (if 0 < i then String.mk (label.toList.drop (i + 1)) else label) = _
    by_cases hi : 0 < i
    · rw [if_pos hi]
      have hj : ∃ j, pyRfind '/' label.toList = some (j + 1) := by
        refine ⟨i - 1, ?_⟩
        rw [h]
        congr 1
        omega
      have hcond : '/' ∈ label.toList.drop 1 := (pyRfind_pos_iff _ _).mp hj
      rw [if_pos ((contains_iff_mem _ _).mpr hcond), lastSegmentAfterSlash]
      exact congrArg String.mk (pyRfind_drop '/' label.toList i h)
    · rw [if_neg hi, if_neg]
      intro hc
      obtain ⟨j, hj⟩ := (pyRfind_pos_iff '/' label.toList).mpr
        ((contains_iff_mem _ _).mp hc)
      rw [h] at hj
      cases hj
      omega

/-- Claim C6 (amended): every GraphNode's display name is the substring after
the final `/` when that separator occurs at a strictly positive index, and
the full label otherwise (no separator, or a separator only at index 0). -/
theorem C6_display_name_amended (rootInputs : List String)
    (cs : List TransformTree)
    (hnd : (labelsOfF cs).Nodup) (hne : "" ∉ labelsOfF cs)
    (hprod : ProdOKb [] (seqOfF cs) = true) :
    ∃ gs : List GraphNode,
      DataflowGraphBuilder.visit (.composite "" rootInputs cs) =
        Except.ok (some gs) ∧
      ∀ g ∈ allNodesF gs, g.name = amendedDisplayName g.id := by
  obtain ⟨st', hrun, hstack, hkeys, hnodes, hpt⟩ :=
    builder_run rootInputs cs hnd hne hprod
  have hentry : ∀ v ∈ preorderF cs, dictGet st'.node_map v.full_label =
      some ⟨v.full_label, displayName v.full_label,
        v.children.map TransformTree.full_label,
        (fun L => consumerEdges L (seqAfter L (seqOfF cs))) v.full_label⟩ := by
    intro v hv
    rw [hpt v.full_label,
      expectedEntry_some cs v.full_label v (findTree_of_mem_nodup _ v hnd hv)]
  have hfuel : ∀ t ∈ cs, (preorder t).length < st'.node_map.length + 1 := by
    intro t ht
    have h1 := preorder_length_le t cs ht
    have h2 : st'.node_map.length = (preorderF cs).length := by
      have := congrArg List.length hkeys
      rw [List.length_map] at this
      rw [this, labelsOfF, List.length_map]
    omega
  have hmap := mapM_materialize_expected st'.node_map
    (fun L => consumerEdges L (seqAfter L (seqOfF cs))) (forestSize cs) cs
    (Nat.le_refl _) hentry (st'.node_map.length + 1) hfuel
  refine ⟨expectedGraphF (fun L => consumerEdges L (seqAfter L (seqOfF cs))) cs,
    ?_, ?_⟩
  · simp only [DataflowGraphBuilder.visit, hrun]
    rw [hnodes, hmap]
  · intro g hg
    obtain ⟨u, hu, rfl⟩ := mem_allNodesF_expectedGraphF _ (forestSize cs) cs
      (Nat.le_refl _) g hg
    cases u with
    | leaf l i => exact displayName_eq_amended l
    | composite l i cs2 => exact displayName_eq_amended l

/-- Witness for the amended C6 at the concrete example pipeline. -/
theorem C6_display_name_amended_witness :
    ((labelsOfF exampleForest).Nodup ∧ "" ∉ labelsOfF exampleForest ∧
      ProdOKb [] (seqOfF exampleForest) = true) ∧
    ∃ gs : List GraphNode,
      DataflowGraphBuilder.visit (.composite "" [] exampleForest) =
        Except.ok (some gs) ∧
      ∀ g ∈ allNodesF gs, g.name = amendedDisplayName g.id :=
  ⟨⟨by decide, by decide, by decide⟩,
    C6_display_name_amended [] exampleForest (by decide) (by decide) (by decide)⟩

/-- Counterexample to C6 as stated: the pipeline with a single transform whose
full label is `"/x"` (its only separator at index 0) yields a GraphNode whose
display name is the full label `"/x"`, while the claim's description demands
the last segment `"x"`. -/
theorem C6_counterexample_slash :
    DataflowGraphBuilder.visit (.composite "" [] [.leaf "/x" []]) =
      Except.ok (some [GraphNode.mk "/x" "/x" [] []]) ∧
    specDisplayName "/x" = "x" ∧ ("/x" : String) ≠ "x" :=
  ⟨rfl, by decide, by decide⟩

end Datalab
